import Mathlib

/-!
Verification of the `PollingExecutor` scheduling adapter
(`src/include/thousandeyes/futures/PollingExecutor.h`).

The executor is modelled as a small-step transition system.  Each atomic
step of the model corresponds either to one mutex-protected critical
section of the source or to one lock-free segment between two critical
sections, so every interleaving of the C++ threads is a schedule
(a `List Action`) of the model:

* `Action.watchOp w` — the critical section of `watch` (lines 74-88):
  discard when inactive, otherwise enqueue and possibly claim the poller
  flag (`isPollerRunning_ = true`), registering one pending submitter.
* `Action.submitPoll` — the code after the critical section of `watch`
  (lines 90-92): `shared_from_this` succeeds and `pollFunc_(...)` is
  invoked, creating the poll-loop task (dropped if the runner is stopped).
* `Action.submitThrow` — `shared_from_this()` (line 90) throws
  `bad_weak_ptr`: the submitter vanishes, no poll loop task is created,
  and the poller flag stays set.
* `Action.pollPop` / `Action.pollDie` — the critical section at the top of
  the poll loop (lines 97-107): terminate (clearing `isPollerRunning_`)
  when the queue is empty or the executor is inactive, else pop the head.
* `Action.pollFinish` — the rest of one loop iteration (lines 109-131):
  `w->wait(q_)` returns (outcome given by the environment `Behavior`),
  and the operation is either pushed back to the tail (not ready) or
  submitted to the dispatch runner together with the captured error.
* `Action.dispatchRun` — the dispatch runner executes the head dispatch
  task, invoking `w->dispatch(error)` (lines 129-131).
* `Action.stopCS` — the critical section of `stop` (lines 140-147):
  deactivate and swap the queue into a local snapshot.
* `Action.stopRest` — the remainder of `stop` (lines 149-160): when the
  snapshot belongs to the stop call that deactivated the executor,
  `pollFunc_.stop()` (which blocks until the poll-loop task has finished),
  then `dispatchFunc_.stop()` (which first runs all submitted dispatch
  work), then `dispatch` with the synthetic stopped error on each
  snapshot entry, delivered directly and not through the dispatch runner.
* `Action.destroy` — the destructor (lines 64-67), which is exactly a
  `stop` call and is only reachable when no poll-loop task holds the
  `shared_from_this` keep-alive reference.

Waitables are identified by natural numbers; the environment fixes, for
every waitable `w` and every call index `k`, the outcome of its `k`-th
`wait` call (`Behavior`).  An exception thrown by `wait` is identified by
a numeric code.  The state records an event trace from which the claims
about completion counts, runner shutdown order and check fairness are
stated.
-/

set_option maxHeartbeats 2000000
set_option maxRecDepth 8000

namespace PollingExec

/-- Outcome of one `wait(q)` call on a waitable: returned `true`,
returned `false`, or threw an exception with the given code. -/
inductive WaitOutcome where
  | ready : WaitOutcome
  | notReady : WaitOutcome
  | failed : Nat → WaitOutcome
deriving DecidableEq

/-- Argument with which `Waitable::dispatch` is invoked: no error, the
captured wait error, or the synthetic "Executor stoped" error. -/
inductive Completion where
  | ok : Completion
  | waitErr : Nat → Completion
  | stopErr : Completion
deriving DecidableEq

/-- Observable events of the executor. -/
inductive Ev where
  | accepted : Nat → Ev
  | discarded : Nat → Ev
  | checked : Nat → WaitOutcome → Ev
  | completed : Nat → Completion → Ev
  | pollStopped : Ev
  | dispatchStopped : Ev
deriving DecidableEq

/-- A `stop` call that has executed its critical section but not yet its
tail: whether the executor was active when it entered, and the queue
snapshot it swapped out (`pending` in the source). -/
structure Stopper where
  wasActive : Bool
  snap : List Nat
deriving DecidableEq

/-- State of one `PollingExecutor` instance together with the in-flight
parts of its collaborator tasks and the event trace. -/
structure Exec where
  /-- `active_` (line 168). -/
  active : Bool := true
  /-- `isPollerRunning_` (line 169). -/
  isPollerRunning : Bool := false
  /-- `waitables_` (line 167), front of the list = front of the queue. -/
  waitables : List Nat := []
  /-- The operation popped by the poll loop and currently being waited on. -/
  inFlight : Option Nat := none
  /-- Work submitted to `dispatchFunc_` but not yet executed:
  pairs of waitable and captured error. -/
  dispatchQ : List (Nat × Option Nat) := []
  /-- Number of poll-loop tasks submitted to `pollFunc_` and not yet
  terminated. -/
  pollTasks : Nat := 0
  /-- Number of `watch` calls past their critical section that set
  `isPollerRunning_` but have not yet reached the `pollFunc_` call. -/
  submitters : Nat := 0
  /-- `stop` calls past their critical section, oldest first. -/
  stoppers : List Stopper := []
  /-- Whether `pollFunc_.stop()`/`dispatchFunc_.stop()` have run. -/
  runnersStopped : Bool := false
  /-- Whether the destructor has completed. -/
  destroyed : Bool := false
  /-- Waitables accepted by `watch` while active, in acceptance order. -/
  acceptedL : List Nat := []
  /-- Waitables passed to `watch` while inactive and silently dropped. -/
  discardedL : List Nat := []
  /-- Number of `wait` calls performed so far on each waitable. -/
  waitCount : Nat → Nat := fun _ => 0
  /-- Event trace, oldest first. -/
  trace : List Ev := []

/-- Environment: outcome of the `k`-th `wait(q)` call on waitable `w`. -/
def Behavior : Type := Nat → Nat → WaitOutcome

/-- Scheduler choices: each constructor is one atomic step of one thread,
as described in the header comment. -/
inductive Action where
  | watchOp : Nat → Action
  | submitPoll : Action
  | submitThrow : Action
  | pollPop : Action
  | pollDie : Action
  | pollFinish : Action
  | dispatchRun : Action
  | stopCS : Action
  | stopRest : Action
  | destroy : Action
deriving DecidableEq

/-- Completion argument produced by a dispatch task holding an optional
captured error (lines 129-131). -/
def complOf : Option Nat → Completion
  | none => Completion.ok
  | some e => Completion.waitErr e

/-- Events emitted when the dispatch runner executes all work currently
submitted to it. -/
def drainEv (q : List (Nat × Option Nat)) : List Ev :=
  q.map (fun p => Ev.completed p.1 (complOf p.2))

/-- Events emitted by the snapshot loop of `stop` (lines 154-160): each
pending operation is dispatched directly with the stopped error. -/
def snapEv (l : List Nat) : List Ev :=
  l.map (fun w => Ev.completed w Completion.stopErr)

/-- The critical section of `stop` (lines 140-147): record whether the
executor was active, deactivate it and swap the queue into a snapshot. -/
def stopCSApply (s : Exec) : Exec :=
  { s with active := false, waitables := [],
           stoppers := s.stoppers ++ [⟨s.active, s.waitables⟩] }

/-- The tail of `stop` (lines 149-160) for the stop call that owns
snapshot `r`, executed on a state from which `r` has been removed.
If that call found the executor active it stops the poll runner (which
has already waited for the poll-loop task to finish), then the dispatch
runner, which first executes all dispatch work submitted to it; in all
cases every snapshot entry is then dispatched directly with the stopped
error. -/
def stopRestApply (s : Exec) (r : Stopper) : Exec :=
  if r.wasActive then
    { s with runnersStopped := true, dispatchQ := [],
             trace := s.trace ++ [Ev.pollStopped] ++ drainEv s.dispatchQ ++
                      [Ev.dispatchStopped] ++ snapEv r.snap }
  else
    { s with trace := s.trace ++ snapEv r.snap }

/-- One chosen step of the system on a live (non-destroyed) executor;
`none` when the chosen action is not enabled. -/
def stepAux (beh : Behavior) (s : Exec) : Action → Option Exec
  | Action.watchOp w =>
    if w ∈ s.acceptedL ∨ w ∈ s.discardedL then none
    else if s.active = false then
      some { s with discardedL := s.discardedL ++ [w],
                    trace := s.trace ++ [Ev.discarded w] }
    else if s.isPollerRunning then
      some { s with waitables := s.waitables ++ [w],
                    acceptedL := s.acceptedL ++ [w],
                    trace := s.trace ++ [Ev.accepted w] }
    else
      some { s with waitables := s.waitables ++ [w],
                    acceptedL := s.acceptedL ++ [w],
                    isPollerRunning := true,
                    submitters := s.submitters + 1,
                    trace := s.trace ++ [Ev.accepted w] }
  | Action.submitPoll =>
    match s.submitters with
    | 0 => none
    | n + 1 =>
      some { s with submitters := n,
                    pollTasks := if s.runnersStopped then s.pollTasks
                                 else s.pollTasks + 1 }
  | Action.submitThrow =>
    match s.submitters with
    | 0 => none
    | n + 1 => some { s with submitters := n }
  | Action.pollPop =>
    if s.pollTasks = 0 then none
    else
      match s.inFlight with
      | some _ => none
      | none =>
        if s.active then
          match s.waitables with
          | [] => none
          | w :: rest => some { s with inFlight := some w, waitables := rest }
        else none
  | Action.pollDie =>
    if s.pollTasks = 0 then none
    else
      match s.inFlight with
      | some _ => none
      | none =>
        if s.waitables = [] ∨ s.active = false then
          some { s with isPollerRunning := false, pollTasks := s.pollTasks - 1 }
        else none
  | Action.pollFinish =>
    match s.inFlight with
    | none => none
    | some w =>
      let k := s.waitCount w
      let s1 : Exec :=
        { s with inFlight := none,
                 waitCount := fun v => if v = w then k + 1 else s.waitCount v,
                 trace := s.trace ++ [Ev.checked w (beh w k)] }
      match beh w k with
      | WaitOutcome.ready => some { s1 with dispatchQ := s.dispatchQ ++ [(w, none)] }
      | WaitOutcome.notReady => some { s1 with waitables := s.waitables ++ [w] }
      | WaitOutcome.failed e => some { s1 with dispatchQ := s.dispatchQ ++ [(w, some e)] }
  | Action.dispatchRun =>
    match s.dispatchQ with
    | [] => none
    | (w, e) :: rest =>
      some { s with dispatchQ := rest,
                    trace := s.trace ++ [Ev.completed w (complOf e)] }
  | Action.stopCS => some (stopCSApply s)
  | Action.stopRest =>
    match s.stoppers with
    | [] => none
    | r :: rest =>
      if r.wasActive ∧ s.pollTasks ≠ 0 then none
      else some (stopRestApply { s with stoppers := rest } r)
  | Action.destroy =>
    if s.stoppers = [] ∧ s.pollTasks = 0 ∧ s.submitters = 0 ∧ s.inFlight = none then
      some { stopRestApply { stopCSApply s with stoppers := [] }
               ⟨s.active, s.waitables⟩ with destroyed := true }
    else none

/-- One chosen step of the system; a destroyed executor allows no step. -/
def step (beh : Behavior) (s : Exec) (a : Action) : Option Exec :=
  if s.destroyed then none else stepAux beh s a

/-- Total version of `step`: a disabled action leaves the state unchanged. -/
def stepD (beh : Behavior) (s : Exec) (a : Action) : Exec :=
  (step beh s a).getD s

/-- Run a schedule from a given state. -/
def runFrom (beh : Behavior) (s : Exec) (acts : List Action) : Exec :=
  acts.foldl (stepD beh) s

/-- The freshly constructed executor. -/
def init : Exec := {}

/-- Run a schedule from the freshly constructed executor. -/
def run (beh : Behavior) (acts : List Action) : Exec :=
  runFrom beh init acts

/-! ### Counting observables -/

/-- Number of `dispatch` (complete) invocations on waitable `w` recorded
in a trace. -/
def complCount (t : List Ev) (w : Nat) : Nat :=
  t.countP (fun ev => match ev with
    | Ev.completed v _ => v == w
    | _ => false)

/-- The sequence of waitables in `wait`-call (check) order in a trace. -/
def checksT (t : List Ev) : List Nat :=
  t.filterMap (fun ev => match ev with
    | Ev.checked v _ => some v
    | _ => none)

/-- Number of `dispatch` invocations on `w` over the whole history of a
state. -/
def completionsOf (s : Exec) (w : Nat) : Nat := complCount s.trace w

/-- Occurrences of `w` in the stop snapshots. -/
def snapsCount (l : List Stopper) (w : Nat) : Nat :=
  l.foldr (fun r n => r.snap.count w + n) 0

/-- Occurrences of `w` in the in-flight slot. -/
def inFlightCount (o : Option Nat) (w : Nat) : Nat :=
  match o with
  | some v => if v = w then 1 else 0
  | none => 0

/-- Total number of places currently owning waitable `w`: the pending
queue, the dispatch queue, the in-flight slot of the poll loop, the stop
snapshots, and past completions.  This models the `unique_ptr` ownership
of the source: each accepted waitable lives in exactly one place. -/
def mult (s : Exec) (w : Nat) : Nat :=
  s.waitables.count w + (s.dispatchQ.map Prod.fst).count w +
    inFlightCount s.inFlight w + snapsCount s.stoppers w +
    complCount s.trace w

/-- `firstBefore x w l = true` iff in `l` some occurrence of `x` comes
strictly before the first occurrence of `w` (vacuously true when `w`
does not occur). -/
def firstBefore (x w : Nat) : List Nat → Bool
  | [] => true
  | y :: l => if y = w then false else if y = x then true else firstBefore x w l

/-! ### Sample behaviours and schedules for the witnesses -/

def behReady : Behavior := fun _ _ => WaitOutcome.ready

def behNever : Behavior := fun _ _ => WaitOutcome.notReady

def behFail7 : Behavior := fun _ _ => WaitOutcome.failed 7

/-- A full uneventful life cycle: one operation is watched, polled ready,
dispatched, the poll loop retires and the executor is destroyed. -/
def lifeActs : List Action :=
  [Action.watchOp 0, Action.submitPoll, Action.pollPop, Action.pollFinish,
   Action.dispatchRun, Action.pollDie, Action.destroy]

/-- The poll loop discovers one ready operation and submits it to the
dispatch runner, then retires; `stop` is entered while that dispatch
work is still queued. -/
def c9acts : List Action :=
  [Action.watchOp 0, Action.submitPoll, Action.pollPop, Action.pollFinish,
   Action.pollDie, Action.stopCS]

/-- One operation is accepted but `shared_from_this` fails, so it is
still pending, with no poll loop, when the executor is destroyed. -/
def c8acts : List Action := [Action.watchOp 3, Action.submitThrow]

/-- The schedule that leaves an operation in the pending queue after a
completed `stop` call: the operation is in flight when the critical
section of `stop` swaps the queue out, its `wait` then returns false,
and the poll loop pushes it back into the (already swapped) queue before
retiring. -/
def orphanActs : List Action :=
  [Action.watchOp 0, Action.submitPoll, Action.pollPop, Action.stopCS,
   Action.pollFinish, Action.pollDie, Action.stopRest]

/-- The first `wait` call on operation 0 throws error 7. -/
def c6acts : List Action := [Action.watchOp 0, Action.submitPoll, Action.pollPop]

/-- The waitables checked (in order) by the `wait` calls performed while
running `acts` from `s`. -/
def newChecks (beh : Behavior) (s : Exec) (acts : List Action) : List Nat :=
  checksT (((runFrom beh s acts).trace).drop s.trace.length)

/-- Operation 0 is never ready; operation 1 is ready at once. -/
def behC7 : Behavior :=
  fun v _ => if v = 0 then WaitOutcome.notReady else WaitOutcome.ready

def c7acts : List Action :=
  [Action.watchOp 0, Action.submitPoll, Action.watchOp 1, Action.pollPop]

def c7acts2 : List Action :=
  [Action.pollPop, Action.pollFinish, Action.pollPop, Action.pollFinish]

/-- A dispatch-queue entry is justified by the behaviour: its captured
error (or absence of one) matches some `wait` outcome of that waitable. -/
def qEntryOk (beh : Behavior) : Nat × Option Nat → Prop
  | (w, none) => ∃ k, beh w k = WaitOutcome.ready
  | (w, some e) => ∃ k, beh w k = WaitOutcome.failed e

/-- A trace event is justified by the behaviour: a non-stop completion
carries either no error after a ready `wait` or the error captured from
a throwing `wait`. -/
def evOk (beh : Behavior) : Ev → Prop
  | Ev.completed w Completion.ok => ∃ k, beh w k = WaitOutcome.ready
  | Ev.completed w (Completion.waitErr e) => ∃ k, beh w k = WaitOutcome.failed e
  | _ => True

/-! ### The inductive invariant -/

/-- Inductive invariant of the transition system, capturing the
single-poller discipline, ownership of waitables, runner-shutdown
discipline and quiescence after destruction. -/
structure Inv (beh : Behavior) (s : Exec) : Prop where
  onePoller : s.pollTasks + s.submitters ≤ 1
  flagOff : s.isPollerRunning = false → s.pollTasks = 0 ∧ s.submitters = 0
  inFlightAlive : ∀ w, s.inFlight = some w → s.pollTasks = 1
  stoppedQuiet : s.runnersStopped = true →
    s.pollTasks = 0 ∧ s.dispatchQ = [] ∧ s.inFlight = none ∧ s.active = false
  activeClean : s.active = true → s.stoppers = [] ∧ s.runnersStopped = false
  inactiveStopped : s.active = false →
    s.runnersStopped = true ∨ ∃ r ∈ s.stoppers, r.wasActive = true
  pendingStop : ∀ r ∈ s.stoppers, r.wasActive = true → s.runnersStopped = false
  oneShutdown : s.stoppers.countP (fun r => r.wasActive) ≤ 1
  pollStopOnce : s.trace.count Ev.pollStopped =
    (if s.runnersStopped then 1 else 0)
  dispatchStopOnce : s.trace.count Ev.dispatchStopped =
    (if s.runnersStopped then 1 else 0)
  ownership : ∀ w, mult s w = if w ∈ s.acceptedL then 1 else 0
  qOk : ∀ p ∈ s.dispatchQ, qEntryOk beh p
  traceOk : ∀ ev ∈ s.trace, evOk beh ev
  deadQuiet : s.destroyed = true →
    s.waitables = [] ∧ s.dispatchQ = [] ∧ s.inFlight = none ∧ s.stoppers = []

/-! ### Counting lemmas -/

@[simp]
theorem complCount_nil (w : Nat) : complCount [] w = 0 := rfl

@[simp]
theorem complCount_append (t u : List Ev) (w : Nat) :
    complCount (t ++ u) w = complCount t w + complCount u w := by
  simp [complCount, List.countP_append]

@[simp]
theorem complCount_completed (v : Nat) (c : Completion) (w : Nat) :
    complCount [Ev.completed v c] w = if v = w then 1 else 0 := by
  simp [complCount, List.countP_cons]

@[simp]
theorem complCount_accepted (v w : Nat) : complCount [Ev.accepted v] w = 0 := rfl

@[simp]
theorem complCount_discarded (v w : Nat) : complCount [Ev.discarded v] w = 0 := rfl

@[simp]
theorem complCount_checked (v : Nat) (o : WaitOutcome) (w : Nat) :
    complCount [Ev.checked v o] w = 0 := rfl

@[simp]
theorem complCount_pollStopped (w : Nat) : complCount [Ev.pollStopped] w = 0 := rfl

@[simp]
theorem complCount_dispatchStopped (w : Nat) :
    complCount [Ev.dispatchStopped] w = 0 := rfl

@[simp]
theorem complCount_snapEv (l : List Nat) (w : Nat) :
    complCount (snapEv l) w = l.count w := by
  induction l with
  | nil => rfl
  | cons a l ih =>
    simp [snapEv, complCount, List.countP_cons, List.count_cons] at ih ⊢
    by_cases haw : a = w <;> simp [haw, ih, complCount] <;> omega

@[simp]
theorem complCount_drainEv (q : List (Nat × Option Nat)) (w : Nat) :
    complCount (drainEv q) w = (q.map Prod.fst).count w := by
  induction q with
  | nil => rfl
  | cons p q ih =>
    simp [drainEv, complCount, List.countP_cons, List.count_cons] at ih ⊢
    by_cases hw : p.1 = w <;> simp [hw, ih, complCount] <;> omega

@[simp]
theorem count_pollStopped_snapEv (l : List Nat) :
    (snapEv l).count Ev.pollStopped = 0 := by
  induction l with
  | nil => rfl
  | cons a l ih => simpa [snapEv, List.count_cons] using ih

@[simp]
theorem count_dispatchStopped_snapEv (l : List Nat) :
    (snapEv l).count Ev.dispatchStopped = 0 := by
  induction l with
  | nil => rfl
  | cons a l ih => simpa [snapEv, List.count_cons] using ih

@[simp]
theorem count_pollStopped_drainEv (q : List (Nat × Option Nat)) :
    (drainEv q).count Ev.pollStopped = 0 := by
  induction q with
  | nil => rfl
  | cons p q ih => simpa [drainEv, List.count_cons] using ih

@[simp]
theorem count_dispatchStopped_drainEv (q : List (Nat × Option Nat)) :
    (drainEv q).count Ev.dispatchStopped = 0 := by
  induction q with
  | nil => rfl
  | cons p q ih => simpa [drainEv, List.count_cons] using ih

@[simp]
theorem snapsCount_nil (w : Nat) : snapsCount [] w = 0 := rfl

@[simp]
theorem snapsCount_cons (r : Stopper) (l : List Stopper) (w : Nat) :
    snapsCount (r :: l) w = r.snap.count w + snapsCount l w := rfl

@[simp]
theorem snapsCount_append (l₁ l₂ : List Stopper) (w : Nat) :
    snapsCount (l₁ ++ l₂) w = snapsCount l₁ w + snapsCount l₂ w := by
  induction l₁ with
  | nil => simp
  | cons r l ih => simp [ih]; omega

@[simp]
theorem inFlightCount_none (w : Nat) : inFlightCount none w = 0 := rfl

@[simp]
theorem inFlightCount_some (v w : Nat) :
    inFlightCount (some v) w = if v = w then 1 else 0 := rfl

@[simp]
theorem checksT_nil : checksT [] = [] := rfl

@[simp]
theorem checksT_append (t u : List Ev) :
    checksT (t ++ u) = checksT t ++ checksT u := by
  simp [checksT, List.filterMap_append]

@[simp]
theorem checksT_accepted (v : Nat) : checksT [Ev.accepted v] = [] := rfl

@[simp]
theorem checksT_discarded (v : Nat) : checksT [Ev.discarded v] = [] := rfl

@[simp]
theorem checksT_checked (v : Nat) (o : WaitOutcome) :
    checksT [Ev.checked v o] = [v] := rfl

@[simp]
theorem checksT_completed (v : Nat) (c : Completion) :
    checksT [Ev.completed v c] = [] := rfl

@[simp]
theorem checksT_pollStopped : checksT [Ev.pollStopped] = [] := rfl

@[simp]
theorem checksT_dispatchStopped : checksT [Ev.dispatchStopped] = [] := rfl

@[simp]
theorem checksT_cons_accepted (v : Nat) (t : List Ev) :
    checksT (Ev.accepted v :: t) = checksT t := rfl

@[simp]
theorem checksT_cons_discarded (v : Nat) (t : List Ev) :
    checksT (Ev.discarded v :: t) = checksT t := rfl

@[simp]
theorem checksT_cons_checked (v : Nat) (o : WaitOutcome) (t : List Ev) :
    checksT (Ev.checked v o :: t) = v :: checksT t := rfl

@[simp]
theorem checksT_cons_completed (v : Nat) (c : Completion) (t : List Ev) :
    checksT (Ev.completed v c :: t) = checksT t := rfl

@[simp]
theorem checksT_cons_pollStopped (t : List Ev) :
    checksT (Ev.pollStopped :: t) = checksT t := rfl

@[simp]
theorem checksT_cons_dispatchStopped (t : List Ev) :
    checksT (Ev.dispatchStopped :: t) = checksT t := rfl

@[simp]
theorem checksT_snapEv (l : List Nat) : checksT (snapEv l) = [] := by
  induction l with
  | nil => rfl
  | cons a l ih => simpa [snapEv, checksT] using ih

@[simp]
theorem checksT_drainEv (q : List (Nat × Option Nat)) :
    checksT (drainEv q) = [] := by
  induction q with
  | nil => rfl
  | cons p q ih => simpa [drainEv, checksT] using ih

/-! ### The invariant holds initially and is preserved -/

theorem inv_init (beh : Behavior) : Inv beh init := by
  constructor <;> simp [init, mult, complCount]

theorem inv_watchOp {beh : Behavior} {s t : Exec} {w : Nat}
    (h : Inv beh s) (hd : s.destroyed = false)
    (hstep : stepAux beh s (Action.watchOp w) = some t) : Inv beh t := by
  simp only [stepAux] at hstep
  split_ifs at hstep with h1 h2 h3
  · -- inactive: the operation is discarded
    have ht := Option.some.inj hstep; subst ht
    refine ⟨h.onePoller, h.flagOff, h.inFlightAlive, h.stoppedQuiet, h.activeClean,
      h.inactiveStopped, h.pendingStop, h.oneShutdown, ?_, ?_, ?_, h.qOk, ?_, ?_⟩
    · simpa [List.count_append] using h.pollStopOnce
    · simpa [List.count_append] using h.dispatchStopOnce
    · intro v; simpa [mult] using h.ownership v
    · intro ev hev
      rcases List.mem_append.mp hev with hev | hev
      · exact h.traceOk ev hev
      · simp at hev; subst hev; trivial
    · simp [hd]
  · -- active, poller already running: enqueue only
    have ht := Option.some.inj hstep; subst ht
    have hw : w ∉ s.acceptedL ∧ w ∉ s.discardedL := by
      constructor <;> intro hc <;> exact h1 (by simp [hc])
    refine ⟨h.onePoller, h.flagOff, h.inFlightAlive, ?_, h.activeClean,
      h.inactiveStopped, h.pendingStop, h.oneShutdown, ?_, ?_, ?_, h.qOk, ?_, ?_⟩
    · intro hr
      obtain ⟨hp, hq, hf, ha⟩ := h.stoppedQuiet hr
      rw [ha] at h2
      exact absurd rfl h2
    · simpa [List.count_append] using h.pollStopOnce
    · simpa [List.count_append] using h.dispatchStopOnce
    · intro v
      have hv := h.ownership v
      by_cases hvw : v = w
      · subst hvw
        rw [if_neg hw.1] at hv
        have hv5 : s.waitables.count v = 0 ∧ (s.dispatchQ.map Prod.fst).count v = 0 ∧
            inFlightCount s.inFlight v = 0 ∧ snapsCount s.stoppers v = 0 ∧
            complCount s.trace v = 0 := by
          simp only [mult] at hv; omega
        simp only [mult, complCount_append, complCount_accepted]
        rw [List.count_append]
        rw [if_pos (by simp : v ∈ s.acceptedL ++ [v])]
        have h9 : List.count v [v] = 1 := by simp
        omega
      · simp only [mult, complCount_append, complCount_accepted] at hv ⊢
        rw [List.count_append]
        have h9 : List.count v [w] = 0 := by
          rw [List.count_singleton']; simp [Ne.symm hvw]
        rw [h9]
        by_cases hm : v ∈ s.acceptedL
        · rw [if_pos hm] at hv
          rw [if_pos (by simp [hm] : v ∈ s.acceptedL ++ [w])]
          omega
        · rw [if_neg hm] at hv
          rw [if_neg (by simp [hm, hvw] : ¬v ∈ s.acceptedL ++ [w])]
          omega
    · intro ev hev
      rcases List.mem_append.mp hev with hev | hev
      · exact h.traceOk ev hev
      · simp at hev; subst hev; trivial
    · simp [hd]
  · -- active, no poller: enqueue, claim the flag, register a submitter
    have ht := Option.some.inj hstep; subst ht
    have hw : w ∉ s.acceptedL ∧ w ∉ s.discardedL := by
      constructor <;> intro hc <;> exact h1 (by simp [hc])
    have hflag : s.isPollerRunning = false := by
      cases hh : s.isPollerRunning
      · rfl
      · exact absurd hh h3
    obtain ⟨hp0, hs0⟩ := h.flagOff hflag
    refine ⟨?_, ?_, ?_, ?_, h.activeClean, h.inactiveStopped,
      h.pendingStop, h.oneShutdown, ?_, ?_, ?_, h.qOk, ?_, ?_⟩
    · simp [hp0, hs0]
    · simp
    · intro v hv
      exact absurd (h.inFlightAlive v hv) (by simp [hp0])
    · intro hr
      obtain ⟨hp, hq, hf, ha⟩ := h.stoppedQuiet hr
      rw [ha] at h2
      exact absurd rfl h2
    · simpa [List.count_append] using h.pollStopOnce
    · simpa [List.count_append] using h.dispatchStopOnce
    · intro v
      have hv := h.ownership v
      by_cases hvw : v = w
      · subst hvw
        rw [if_neg hw.1] at hv
        have hv5 : s.waitables.count v = 0 ∧ (s.dispatchQ.map Prod.fst).count v = 0 ∧
            inFlightCount s.inFlight v = 0 ∧ snapsCount s.stoppers v = 0 ∧
            complCount s.trace v = 0 := by
          simp only [mult] at hv; omega
        simp only [mult, complCount_append, complCount_accepted]
        rw [List.count_append]
        rw [if_pos (by simp : v ∈ s.acceptedL ++ [v])]
        have h9 : List.count v [v] = 1 := by simp
        omega
      · simp only [mult, complCount_append, complCount_accepted] at hv ⊢
        rw [List.count_append]
        have h9 : List.count v [w] = 0 := by
          rw [List.count_singleton']; simp [Ne.symm hvw]
        rw [h9]
        by_cases hm : v ∈ s.acceptedL
        · rw [if_pos hm] at hv
          rw [if_pos (by simp [hm] : v ∈ s.acceptedL ++ [w])]
          omega
        · rw [if_neg hm] at hv
          rw [if_neg (by simp [hm, hvw] : ¬v ∈ s.acceptedL ++ [w])]
          omega
    · intro ev hev
      rcases List.mem_append.mp hev with hev | hev
      · exact h.traceOk ev hev
      · simp at hev; subst hev; trivial
    · simp [hd]

theorem evOk_snapEv {beh : Behavior} {l : List Nat} {ev : Ev}
    (h : ev ∈ snapEv l) : evOk beh ev := by
  obtain ⟨w, _, rfl⟩ := List.mem_map.mp h
  trivial

theorem evOk_drainEv {beh : Behavior} {q : List (Nat × Option Nat)}
    (hq : ∀ p ∈ q, qEntryOk beh p) {ev : Ev} (h : ev ∈ drainEv q) :
    evOk beh ev := by
  obtain ⟨p, hp, rfl⟩ := List.mem_map.mp h
  obtain ⟨v, e⟩ := p
  have := hq ⟨v, e⟩ hp
  cases e
  · exact this
  · exact this

theorem inv_submitPoll {beh : Behavior} {s t : Exec}
    (h : Inv beh s) (hd : s.destroyed = false)
    (hstep : stepAux beh s Action.submitPoll = some t) : Inv beh t := by
  simp only [stepAux] at hstep
  split at hstep
  · exact Option.noConfusion hstep
  · rename_i n hsub
    have ht := Option.some.inj hstep; subst ht
    have h1 := h.onePoller
    rw [hsub] at h1
    refine ⟨?_, ?_, ?_, ?_, h.activeClean, h.inactiveStopped,
      h.pendingStop, h.oneShutdown, h.pollStopOnce, h.dispatchStopOnce,
      h.ownership, h.qOk, h.traceOk, ?_⟩
    · by_cases hr : s.runnersStopped = true <;> simp [hr] <;> omega
    · intro hf
      obtain ⟨hp, hs⟩ := h.flagOff hf
      rw [hsub] at hs
      exact absurd hs (Nat.succ_ne_zero n)
    · intro v hv
      have h2 := h.inFlightAlive v hv
      rw [h2] at h1
      exact absurd h1 (by omega)
    · intro hr
      have hr2 : s.runnersStopped = true := hr
      obtain ⟨hp, hq, hf, ha⟩ := h.stoppedQuiet hr2
      refine ⟨?_, hq, hf, ha⟩
      show (if s.runnersStopped = true then s.pollTasks else s.pollTasks + 1) = 0
      rw [if_pos hr2]
      exact hp
    · simp [hd]

theorem inv_submitThrow {beh : Behavior} {s t : Exec}
    (h : Inv beh s) (hd : s.destroyed = false)
    (hstep : stepAux beh s Action.submitThrow = some t) : Inv beh t := by
  simp only [stepAux] at hstep
  split at hstep
  · exact Option.noConfusion hstep
  · rename_i n hsub
    have ht := Option.some.inj hstep; subst ht
    have h1 := h.onePoller
    rw [hsub] at h1
    refine ⟨by show s.pollTasks + n ≤ 1; omega, ?_, h.inFlightAlive,
      h.stoppedQuiet, h.activeClean,
      h.inactiveStopped, h.pendingStop, h.oneShutdown, h.pollStopOnce,
      h.dispatchStopOnce, h.ownership, h.qOk, h.traceOk, ?_⟩
    · intro hf
      obtain ⟨hp, hs⟩ := h.flagOff hf
      rw [hsub] at hs
      exact absurd hs (Nat.succ_ne_zero n)
    · simp [hd]

theorem inv_pollPop {beh : Behavior} {s t : Exec}
    (h : Inv beh s) (hd : s.destroyed = false)
    (hstep : stepAux beh s Action.pollPop = some t) : Inv beh t := by
  simp only [stepAux] at hstep
  split at hstep
  · exact Option.noConfusion hstep
  · rename_i hp
    split at hstep
    · exact Option.noConfusion hstep
    · rename_i hif
      split at hstep
      · split at hstep
        · exact Option.noConfusion hstep
        · rename_i hact _ w rest hwl
          have ht := Option.some.inj hstep; subst ht
          refine ⟨h.onePoller, ?_, ?_, ?_, h.activeClean, h.inactiveStopped,
            h.pendingStop, h.oneShutdown, h.pollStopOnce, h.dispatchStopOnce,
            ?_, h.qOk, h.traceOk, ?_⟩
          · intro hf
            obtain ⟨hp0, _⟩ := h.flagOff hf
            exact absurd hp0 hp
          · intro v _
            have h1 := h.onePoller
            show s.pollTasks = 1
            omega
          · intro hr
            obtain ⟨hp0, _, _, _⟩ := h.stoppedQuiet hr
            exact absurd hp0 hp
          · intro v
            have hv := h.ownership v
            have hm : List.count v rest + List.count v (s.dispatchQ.map Prod.fst) +
                inFlightCount (some w) v + snapsCount s.stoppers v +
                complCount s.trace v = mult s v := by
              simp only [mult, hwl, hif, List.count_cons, inFlightCount_none,
                inFlightCount_some]
              by_cases hvw : v = w
              · subst hvw; simp <;> omega
              · simp [hvw, Ne.symm hvw] <;> omega
            simp only [mult]
            rw [hm] at *
            exact hv
          · simp [hd]
      · exact Option.noConfusion hstep

theorem inv_pollDie {beh : Behavior} {s t : Exec}
    (h : Inv beh s) (hd : s.destroyed = false)
    (hstep : stepAux beh s Action.pollDie = some t) : Inv beh t := by
  simp only [stepAux] at hstep
  split at hstep
  · exact Option.noConfusion hstep
  · rename_i hp
    split at hstep
    · exact Option.noConfusion hstep
    · rename_i hif
      split at hstep
      · have ht := Option.some.inj hstep; subst ht
        have h1 := h.onePoller
        refine ⟨by show s.pollTasks - 1 + s.submitters ≤ 1; omega,
          by intro _; show s.pollTasks - 1 = 0 ∧ s.submitters = 0; omega,
          ?_, ?_, h.activeClean, h.inactiveStopped,
          h.pendingStop, h.oneShutdown, h.pollStopOnce, h.dispatchStopOnce,
          h.ownership, h.qOk, h.traceOk, ?_⟩
        · intro v hv
          simp [hif] at hv
        · intro hr
          obtain ⟨hp0, hq0, hf0, ha0⟩ := h.stoppedQuiet hr
          exact ⟨by show s.pollTasks - 1 = 0; omega, hq0, hf0, ha0⟩
        · simp [hd]
      · exact Option.noConfusion hstep

theorem inv_pollFinish {beh : Behavior} {s t : Exec}
    (h : Inv beh s) (hd : s.destroyed = false)
    (hstep : stepAux beh s Action.pollFinish = some t) : Inv beh t := by
  simp only [stepAux] at hstep
  split at hstep
  · exact Option.noConfusion hstep
  · rename_i w hif
    have hpoll : s.pollTasks = 1 := h.inFlightAlive w hif
    have hrs : s.runnersStopped = false := by
      cases hr : s.runnersStopped
      · rfl
      · obtain ⟨_, _, hnone, _⟩ := h.stoppedQuiet hr
        rw [hif] at hnone
        exact Option.noConfusion hnone
    split at hstep <;> rename_i hbeh <;>
      (have ht := Option.some.inj hstep; subst ht)
    · -- wait returned true: hand to the dispatch runner with no error
      refine ⟨h.onePoller, h.flagOff, ?_, ?_, h.activeClean, h.inactiveStopped,
        h.pendingStop, h.oneShutdown, ?_, ?_, ?_, ?_, ?_, ?_⟩
      · intro v hv
        simp at hv
      · intro hr
        rw [hr] at hrs
        exact Bool.noConfusion hrs
      · simpa [List.count_append] using h.pollStopOnce
      · simpa [List.count_append] using h.dispatchStopOnce
      · intro v
        have hv := h.ownership v
        have hm : List.count v s.waitables +
            List.count v ((s.dispatchQ ++ [(w, none)]).map Prod.fst) +
            inFlightCount none v + snapsCount s.stoppers v +
            (complCount s.trace v + complCount [Ev.checked w (beh w (s.waitCount w))] v) =
            mult s v := by
          simp only [mult, hif, List.map_append, List.count_append,
            inFlightCount_none, inFlightCount_some, complCount_checked]
          by_cases hvw : v = w
          · subst hvw; simp <;> omega
          · simp [hvw, Ne.symm hvw] <;> omega
        simp only [mult, complCount_append]
        rw [hm] at *
        exact hv
      · intro p hp
        rcases List.mem_append.mp hp with hp | hp
        · exact h.qOk p hp
        · simp at hp; subst hp
          exact ⟨s.waitCount w, hbeh⟩
      · intro ev hev
        rcases List.mem_append.mp hev with hev | hev
        · exact h.traceOk ev hev
        · simp at hev; subst hev; trivial
      · simp [hd]
    · -- wait returned false: push back to the tail of the queue
      refine ⟨h.onePoller, h.flagOff, ?_, ?_, h.activeClean, h.inactiveStopped,
        h.pendingStop, h.oneShutdown, ?_, ?_, ?_, h.qOk, ?_, ?_⟩
      · intro v hv
        simp at hv
      · intro hr
        rw [hr] at hrs
        exact Bool.noConfusion hrs
      · simpa [List.count_append] using h.pollStopOnce
      · simpa [List.count_append] using h.dispatchStopOnce
      · intro v
        have hv := h.ownership v
        have hm : List.count v (s.waitables ++ [w]) +
            List.count v (s.dispatchQ.map Prod.fst) +
            inFlightCount none v + snapsCount s.stoppers v +
            (complCount s.trace v + complCount [Ev.checked w (beh w (s.waitCount w))] v) =
            mult s v := by
          simp only [mult, hif, List.count_append, inFlightCount_none,
            inFlightCount_some, complCount_checked]
          by_cases hvw : v = w
          · subst hvw; simp <;> omega
          · simp [hvw, Ne.symm hvw] <;> omega
        simp only [mult, complCount_append]
        rw [hm] at *
        exact hv
      · intro ev hev
        rcases List.mem_append.mp hev with hev | hev
        · exact h.traceOk ev hev
        · simp at hev; subst hev; trivial
      · simp [hd]
    · -- wait threw: hand to the dispatch runner with the captured error
      rename_i e
      refine ⟨h.onePoller, h.flagOff, ?_, ?_, h.activeClean, h.inactiveStopped,
        h.pendingStop, h.oneShutdown, ?_, ?_, ?_, ?_, ?_, ?_⟩
      · intro v hv
        simp at hv
      · intro hr
        rw [hr] at hrs
        exact Bool.noConfusion hrs
      · simpa [List.count_append] using h.pollStopOnce
      · simpa [List.count_append] using h.dispatchStopOnce
      · intro v
        have hv := h.ownership v
        have hm : List.count v s.waitables +
            List.count v ((s.dispatchQ ++ [(w, some e)]).map Prod.fst) +
            inFlightCount none v + snapsCount s.stoppers v +
            (complCount s.trace v + complCount [Ev.checked w (beh w (s.waitCount w))] v) =
            mult s v := by
          simp only [mult, hif, List.map_append, List.count_append,
            inFlightCount_none, inFlightCount_some, complCount_checked]
          by_cases hvw : v = w
          · subst hvw; simp <;> omega
          · simp [hvw, Ne.symm hvw] <;> omega
        simp only [mult, complCount_append]
        rw [hm] at *
        exact hv
      · intro p hp
        rcases List.mem_append.mp hp with hp | hp
        · exact h.qOk p hp
        · simp at hp; subst hp
          exact ⟨s.waitCount w, hbeh⟩
      · intro ev hev
        rcases List.mem_append.mp hev with hev | hev
        · exact h.traceOk ev hev
        · simp at hev; subst hev; trivial
      · simp [hd]

theorem inv_dispatchRun {beh : Behavior} {s t : Exec}
    (h : Inv beh s) (hd : s.destroyed = false)
    (hstep : stepAux beh s Action.dispatchRun = some t) : Inv beh t := by
  simp only [stepAux] at hstep
  split at hstep
  · exact Option.noConfusion hstep
  · rename_i w e rest hq
    have ht := Option.some.inj hstep; subst ht
    refine ⟨h.onePoller, h.flagOff, h.inFlightAlive, ?_, h.activeClean,
      h.inactiveStopped, h.pendingStop, h.oneShutdown, ?_, ?_, ?_, ?_, ?_, ?_⟩
    · intro hr
      obtain ⟨_, hq0, _, _⟩ := h.stoppedQuiet hr
      rw [hq] at hq0
      exact List.noConfusion hq0
    · simpa [List.count_append] using h.pollStopOnce
    · simpa [List.count_append] using h.dispatchStopOnce
    · intro v
      have hv := h.ownership v
      have hm : List.count v s.waitables + List.count v (rest.map Prod.fst) +
          inFlightCount s.inFlight v + snapsCount s.stoppers v +
          (complCount s.trace v + complCount [Ev.completed w (complOf e)] v) =
          mult s v := by
        simp only [mult, hq, List.map_cons, List.count_cons, complCount_completed]
        by_cases hvw : v = w
        · subst hvw; simp <;> omega
        · simp [hvw, Ne.symm hvw] <;> omega
      simp only [mult, complCount_append]
      rw [hm] at *
      exact hv
    · intro p hp
      exact h.qOk p (by rw [hq]; exact List.mem_cons_of_mem _ hp)
    · intro ev hev
      rcases List.mem_append.mp hev with hev | hev
      · exact h.traceOk ev hev
      · simp at hev; subst hev
        have hqe := h.qOk (w, e) (by rw [hq]; exact List.mem_cons_self _ _)
        cases e
        · exact hqe
        · exact hqe
    · simp [hd]

theorem inv_stopCS {beh : Behavior} {s t : Exec}
    (h : Inv beh s) (hd : s.destroyed = false)
    (hstep : stepAux beh s Action.stopCS = some t) : Inv beh t := by
  simp only [stepAux] at hstep
  have ht := Option.some.inj hstep; subst ht
  simp only [stopCSApply]
  refine ⟨h.onePoller, h.flagOff, h.inFlightAlive, ?_, ?_, ?_, ?_, ?_,
    h.pollStopOnce, h.dispatchStopOnce, ?_, h.qOk, h.traceOk, ?_⟩
  · intro hr
    have hr2 : s.runnersStopped = true := hr
    obtain ⟨a, b, c, _⟩ := h.stoppedQuiet hr2
    exact ⟨a, b, c, rfl⟩
  · intro ha
    have ha2 : false = true := ha
    exact Bool.noConfusion ha2
  · intro _
    cases hsa : s.active
    · rcases h.inactiveStopped hsa with hl | ⟨r, hr, hw⟩
      · exact Or.inl hl
      · exact Or.inr ⟨r, List.mem_append_left _ hr, hw⟩
    · refine Or.inr ⟨⟨true, s.waitables⟩, List.mem_append_right _ ?_, rfl⟩
      exact List.mem_singleton_self _
  · intro r hr hw
    rcases List.mem_append.mp hr with h1 | h1
    · exact h.pendingStop r h1 hw
    · have h2 : r = (⟨s.active, s.waitables⟩ : Stopper) := by simpa using h1
      subst h2
      exact (h.activeClean hw).2
  · show (s.stoppers ++ [(⟨s.active, s.waitables⟩ : Stopper)]).countP
      (fun r => r.wasActive) ≤ 1
    rw [List.countP_append]
    have h2 := h.oneShutdown
    cases hsa : s.active
    · simpa [List.countP_cons] using h2
    · obtain ⟨hs0, _⟩ := h.activeClean hsa
      simp [hs0, List.countP_cons]
  · intro v
    have hv := h.ownership v
    have hm : List.count v ([] : List Nat) +
        List.count v (s.dispatchQ.map Prod.fst) + inFlightCount s.inFlight v +
        snapsCount (s.stoppers ++ [⟨s.active, s.waitables⟩]) v +
        complCount s.trace v = mult s v := by
      simp only [mult, snapsCount_append, snapsCount_cons, snapsCount_nil,
        List.count_nil]
      omega
    simp only [mult]
    rw [hm] at *
    exact hv
  · simp [hd]

theorem inv_stopRest {beh : Behavior} {s t : Exec}
    (h : Inv beh s) (hd : s.destroyed = false)
    (hstep : stepAux beh s Action.stopRest = some t) : Inv beh t := by
  simp only [stepAux] at hstep
  split at hstep
  · exact Option.noConfusion hstep
  · rename_i r rest hstop
    split at hstep
    · exact Option.noConfusion hstep
    · rename_i hguard
      have ht := Option.some.inj hstep; subst ht
      by_cases hwa : r.wasActive = true
      · -- this stop call had found the executor active: shut down the runners
        have hpoll : s.pollTasks = 0 := by
          by_contra hc
          exact hguard ⟨hwa, hc⟩
        have hact : s.active = false := by
          cases hsa : s.active
          · rfl
          · exact absurd (h.activeClean hsa).1 (by simp [hstop])
        have hrs : s.runnersStopped = false :=
          h.pendingStop r (by rw [hstop]; exact List.mem_cons_self _ _) hwa
        have hinf : s.inFlight = none := by
          cases hi : s.inFlight
          · rfl
          · rename_i v
            have := h.inFlightAlive v hi
            omega
        have hcount : rest.countP (fun r => r.wasActive) = 0 := by
          have h2 := h.oneShutdown
          rw [hstop] at h2
          rw [List.countP_cons_of_pos _ _ (by simp [hwa])] at h2
          omega
        have htr0 : s.trace.count Ev.pollStopped = 0 := by
          have h0 := h.pollStopOnce
          rw [hrs] at h0
          simpa using h0
        have htr1 : s.trace.count Ev.dispatchStopped = 0 := by
          have h0 := h.dispatchStopOnce
          rw [hrs] at h0
          simpa using h0
        simp only [stopRestApply, if_pos hwa]
        refine ⟨h.onePoller, h.flagOff, ?_, ?_, ?_, ?_, ?_, ?_, ?_, ?_, ?_, ?_, ?_, ?_⟩
        · intro v hv
          have hv2 : s.inFlight = some v := hv
          rw [hinf] at hv2
          exact Option.noConfusion hv2
        · intro _
          exact ⟨hpoll, rfl, hinf, hact⟩
        · intro ha
          have ha2 : s.active = true := ha
          rw [hact] at ha2
          exact Bool.noConfusion ha2
        · intro _
          exact Or.inl rfl
        · intro r2 hr2 hw2
          exact absurd hw2 (List.countP_eq_zero.mp hcount r2 hr2)
        · show rest.countP (fun r => r.wasActive) ≤ 1
          omega
        · show (s.trace ++ [Ev.pollStopped] ++ drainEv s.dispatchQ ++
            [Ev.dispatchStopped] ++ snapEv r.snap).count Ev.pollStopped = 1
          simp [List.count_append, htr0]
        · show (s.trace ++ [Ev.pollStopped] ++ drainEv s.dispatchQ ++
            [Ev.dispatchStopped] ++ snapEv r.snap).count Ev.dispatchStopped = 1
          simp [List.count_append, htr1]
        · intro v
          have hv := h.ownership v
          have hm : List.count v s.waitables +
              List.count v (([] : List (Nat × Option Nat)).map Prod.fst) +
              inFlightCount s.inFlight v + snapsCount rest v +
              complCount (s.trace ++ [Ev.pollStopped] ++ drainEv s.dispatchQ ++
                [Ev.dispatchStopped] ++ snapEv r.snap) v = mult s v := by
            simp only [mult, hstop, complCount_append, complCount_pollStopped,
              complCount_dispatchStopped, complCount_drainEv, complCount_snapEv,
              snapsCount_cons, List.map_nil, List.count_nil]
            omega
          simp only [mult]
          rw [hm] at *
          exact hv
        · intro p hp
          simp at hp
        · intro ev hev
          rcases List.mem_append.mp hev with hev | hev
          · rcases List.mem_append.mp hev with hev | hev
            · rcases List.mem_append.mp hev with hev | hev
              · rcases List.mem_append.mp hev with hev | hev
                · exact h.traceOk ev hev
                · simp at hev; subst hev; trivial
              · exact evOk_drainEv h.qOk hev
            · simp at hev; subst hev; trivial
          · exact evOk_snapEv hev
        · simp [hd]
      · -- this stop call had found the executor already inactive
        have hwa2 : r.wasActive = false := by
          cases hx : r.wasActive
          · rfl
          · exact absurd hx hwa
        simp only [stopRestApply, if_neg hwa]
        refine ⟨h.onePoller, h.flagOff, h.inFlightAlive, ?_, ?_, ?_, ?_, ?_,
          ?_, ?_, ?_, h.qOk, ?_, ?_⟩
        · intro hr
          have hr2 : s.runnersStopped = true := hr
          exact h.stoppedQuiet hr2
        · intro ha
          have ha2 : s.active = true := ha
          exact absurd (h.activeClean ha2).1 (by simp [hstop])
        · intro ha
          have ha2 : s.active = false := ha
          rcases h.inactiveStopped ha2 with hl | ⟨r2, hr2, hw2⟩
          · exact Or.inl hl
          · rw [hstop] at hr2
            rcases List.mem_cons.mp hr2 with h1 | h1
            · subst h1
              exact absurd hw2 hwa
            · exact Or.inr ⟨r2, h1, hw2⟩
        · intro r2 hr2 hw2
          exact h.pendingStop r2 (by rw [hstop]; exact List.mem_cons_of_mem _ hr2) hw2
        · have h2 := h.oneShutdown
          rw [hstop, List.countP_cons] at h2
          show rest.countP (fun r => r.wasActive) ≤ 1
          omega
        · have h0 := h.pollStopOnce
          simpa [List.count_append] using h0
        · have h0 := h.dispatchStopOnce
          simpa [List.count_append] using h0
        · intro v
          have hv := h.ownership v
          have hm : List.count v s.waitables +
              List.count v (s.dispatchQ.map Prod.fst) +
              inFlightCount s.inFlight v + snapsCount rest v +
              complCount (s.trace ++ snapEv r.snap) v = mult s v := by
            simp only [mult, hstop, complCount_append, complCount_snapEv,
              snapsCount_cons]
            omega
          simp only [mult]
          rw [hm] at *
          exact hv
        · intro ev hev
          rcases List.mem_append.mp hev with hev | hev
          · exact h.traceOk ev hev
          · exact evOk_snapEv hev
        · simp [hd]

theorem inv_destroy {beh : Behavior} {s t : Exec}
    (h : Inv beh s) (hd : s.destroyed = false)
    (hstep : stepAux beh s Action.destroy = some t) : Inv beh t := by
  simp only [stepAux] at hstep
  split_ifs at hstep with hpre
  obtain ⟨hstop0, hpoll, hsub, hinf⟩ := hpre
  have ht := Option.some.inj hstep; subst ht
  simp only [stopCSApply, stopRestApply]
  cases hsa : s.active
  · -- the executor was already stopped before destruction
    have hrs : s.runnersStopped = true := by
      rcases h.inactiveStopped hsa with hl | ⟨r, hr, _⟩
      · exact hl
      · rw [hstop0] at hr
        simp at hr
    obtain ⟨_, hdq, _, _⟩ := h.stoppedQuiet hrs
    simp only [hsa, Bool.false_eq_true, if_false]
    refine ⟨h.onePoller, h.flagOff, ?_, ?_, ?_, ?_, ?_, ?_, ?_, ?_, ?_,
      h.qOk, ?_, ?_⟩
    · intro v hv
      have hv2 : s.inFlight = some v := hv
      rw [hinf] at hv2
      exact Option.noConfusion hv2
    · intro _
      exact ⟨hpoll, hdq, hinf, rfl⟩
    · intro ha
      have ha2 : false = true := ha
      exact Bool.noConfusion ha2
    · intro _
      exact Or.inl hrs
    · intro r hr
      simp at hr
    · show ([] : List Stopper).countP (fun r => r.wasActive) ≤ 1
      simp
    · simpa [List.count_append] using h.pollStopOnce
    · simpa [List.count_append] using h.dispatchStopOnce
    · intro v
      have hv := h.ownership v
      have hm : List.count v ([] : List Nat) +
          List.count v (s.dispatchQ.map Prod.fst) +
          inFlightCount s.inFlight v + snapsCount ([] : List Stopper) v +
          complCount (s.trace ++ snapEv s.waitables) v = mult s v := by
        simp only [mult, hstop0, complCount_append, complCount_snapEv,
          snapsCount_nil, List.count_nil]
        omega
      simp only [mult]
      rw [hm] at *
      exact hv
    · intro ev hev
      rcases List.mem_append.mp hev with hev | hev
      · exact h.traceOk ev hev
      · exact evOk_snapEv hev
    · intro _
      exact ⟨rfl, hdq, hinf, rfl⟩
  · -- the executor was still active: the destructor performs the full stop
    have hrs : s.runnersStopped = false := (h.activeClean hsa).2
    have htr0 : s.trace.count Ev.pollStopped = 0 := by
      have h0 := h.pollStopOnce
      rw [hrs] at h0
      simpa using h0
    have htr1 : s.trace.count Ev.dispatchStopped = 0 := by
      have h0 := h.dispatchStopOnce
      rw [hrs] at h0
      simpa using h0
    simp only [hsa, if_true]
    refine ⟨h.onePoller, h.flagOff, ?_, ?_, ?_, ?_, ?_, ?_, ?_, ?_, ?_, ?_, ?_, ?_⟩
    · intro v hv
      have hv2 : s.inFlight = some v := hv
      rw [hinf] at hv2
      exact Option.noConfusion hv2
    · intro _
      exact ⟨hpoll, rfl, hinf, rfl⟩
    · intro ha
      have ha2 : false = true := ha
      exact Bool.noConfusion ha2
    · intro _
      exact Or.inl rfl
    · intro r hr
      simp at hr
    · show ([] : List Stopper).countP (fun r => r.wasActive) ≤ 1
      simp
    · show (s.trace ++ [Ev.pollStopped] ++ drainEv s.dispatchQ ++
        [Ev.dispatchStopped] ++ snapEv s.waitables).count Ev.pollStopped = 1
      simp [List.count_append, htr0]
    · show (s.trace ++ [Ev.pollStopped] ++ drainEv s.dispatchQ ++
        [Ev.dispatchStopped] ++ snapEv s.waitables).count Ev.dispatchStopped = 1
      simp [List.count_append, htr1]
    · intro v
      have hv := h.ownership v
      have hm : List.count v ([] : List Nat) +
          List.count v (([] : List (Nat × Option Nat)).map Prod.fst) +
          inFlightCount s.inFlight v + snapsCount ([] : List Stopper) v +
          complCount (s.trace ++ [Ev.pollStopped] ++ drainEv s.dispatchQ ++
            [Ev.dispatchStopped] ++ snapEv s.waitables) v = mult s v := by
        simp only [mult, hstop0, complCount_append, complCount_pollStopped,
          complCount_dispatchStopped, complCount_drainEv, complCount_snapEv,
          snapsCount_nil, List.count_nil, List.map_nil]
        omega
      simp only [mult]
      rw [hm] at *
      exact hv
    · intro p hp
      simp at hp
    · intro ev hev
      rcases List.mem_append.mp hev with hev | hev
      · rcases List.mem_append.mp hev with hev | hev
        · rcases List.mem_append.mp hev with hev | hev
          · rcases List.mem_append.mp hev with hev | hev
            · exact h.traceOk ev hev
            · simp at hev; subst hev; trivial
          · exact evOk_drainEv h.qOk hev
        · simp at hev; subst hev; trivial
      · exact evOk_snapEv hev
    · intro _
      exact ⟨rfl, rfl, hinf, rfl⟩

theorem inv_preserve {beh : Behavior} {s t : Exec} {a : Action}
    (h : Inv beh s) (hstep : step beh s a = some t) : Inv beh t := by
  unfold step at hstep
  by_cases hdd : s.destroyed = true
  · rw [if_pos hdd] at hstep
    exact Option.noConfusion hstep
  · rw [if_neg hdd] at hstep
    have hd : s.destroyed = false := by
      cases hx : s.destroyed
      · rfl
      · exact absurd hx hdd
    cases a with
    | watchOp w => exact inv_watchOp h hd hstep
    | submitPoll => exact inv_submitPoll h hd hstep
    | submitThrow => exact inv_submitThrow h hd hstep
    | pollPop => exact inv_pollPop h hd hstep
    | pollDie => exact inv_pollDie h hd hstep
    | pollFinish => exact inv_pollFinish h hd hstep
    | dispatchRun => exact inv_dispatchRun h hd hstep
    | stopCS => exact inv_stopCS h hd hstep
    | stopRest => exact inv_stopRest h hd hstep
    | destroy => exact inv_destroy h hd hstep

theorem inv_stepD {beh : Behavior} {s : Exec} {a : Action}
    (h : Inv beh s) : Inv beh (stepD beh s a) := by
  cases hstep : step beh s a with
  | none => simpa [stepD, hstep] using h
  | some t => simpa [stepD, hstep] using inv_preserve h hstep

theorem inv_runFrom {beh : Behavior} (acts : List Action) :
    ∀ s : Exec, Inv beh s → Inv beh (runFrom beh s acts) := by
  induction acts with
  | nil => intro s h; exact h
  | cons a rest ih =>
    intro s h
    exact ih _ (inv_stepD h)

theorem inv_run (beh : Behavior) (acts : List Action) :
    Inv beh (run beh acts) :=
  inv_runFrom acts init (inv_init beh)

theorem runFrom_append (beh : Behavior) (s : Exec) (l₁ l₂ : List Action) :
    runFrom beh s (l₁ ++ l₂) = runFrom beh (runFrom beh s l₁) l₂ :=
  List.foldl_append _ _ _ _

theorem run_append (beh : Behavior) (l₁ l₂ : List Action) :
    run beh (l₁ ++ l₂) = runFrom beh (run beh l₁) l₂ :=
  List.foldl_append _ _ _ _

/-! ### Step characterizations used by the claim theorems -/

theorem stepD_stopCS (beh : Behavior) {s : Exec} (hd : s.destroyed = false) :
    stepD beh s Action.stopCS = stopCSApply s := by
  simp [stepD, step, stepAux, hd]

theorem stepD_stopRest (beh : Behavior) {s : Exec} {r : Stopper} {rest : List Stopper}
    (hd : s.destroyed = false) (hstop : s.stoppers = r :: rest)
    (hen : r.wasActive = false ∨ s.pollTasks = 0) :
    stepD beh s Action.stopRest = stopRestApply { s with stoppers := rest } r := by
  have hguard : ¬(r.wasActive = true ∧ s.pollTasks ≠ 0) := by
    rintro ⟨h1, h2⟩
    rcases hen with h3 | h3
    · rw [h1] at h3; exact Bool.noConfusion h3
    · exact h2 h3
  simp [stepD, step, stepAux, hd, hstop, hguard]



/-! ### Claim C1 -/

/-- Claim C1: every operation accepted by `watch` while the executor was
active is completed at most once at any point, exactly once by the time
the executor is destroyed, and always with a legitimate argument: no
error after a `wait` that returned true, the captured error of a `wait`
that threw, or the synthetic stopped error. -/
theorem watch_complete_exactly_once (beh : Behavior) (acts : List Action)
    (w : Nat) (hw : w ∈ (run beh acts).acceptedL) :
    completionsOf (run beh acts) w ≤ 1 ∧
    ((run beh acts).destroyed = true → completionsOf (run beh acts) w = 1) ∧
    (∀ c, Ev.completed w c ∈ (run beh acts).trace →
      c = Completion.stopErr ∨
      (c = Completion.ok ∧ ∃ k, beh w k = WaitOutcome.ready) ∨
      (∃ e, c = Completion.waitErr e ∧ ∃ k, beh w k = WaitOutcome.failed e)) := by
  have h := inv_run beh acts
  have hm := h.ownership w
  rw [if_pos hw] at hm
  refine ⟨?_, ?_, ?_⟩
  · simp only [mult] at hm
    simp only [completionsOf]
    omega
  · intro hdd
    obtain ⟨h1, h2, h3, h4⟩ := h.deadQuiet hdd
    simp only [mult, h1, h2, h3, h4, snapsCount_nil, inFlightCount_none,
      List.count_nil, List.map_nil] at hm
    simpa [completionsOf] using hm
  · intro c hc
    have hok := h.traceOk _ hc
    cases c with
    | ok => exact Or.inr (Or.inl ⟨rfl, hok⟩)
    | waitErr e => exact Or.inr (Or.inr ⟨e, rfl, hok⟩)
    | stopErr => exact Or.inl rfl

theorem watch_complete_exactly_once_witness :
    completionsOf (run behReady lifeActs) 0 = 1 :=
  (watch_complete_exactly_once behReady lifeActs 0 (by decide)).2.1 (by decide)

/-! ### Claim C2 -/

/-- Claim C2: at most one poll-loop task is ever alive (even counting a
`watch` call that has claimed the poller flag but not yet submitted the
loop), and whenever `isPollerRunning_` is false there is no poll-loop
task and no pending submitter at all — so only the flag transition from
false to true in `watch` creates a poll loop, and only the loop itself
clears the flag. -/
theorem single_poll_loop (beh : Behavior) (acts : List Action) :
    (run beh acts).pollTasks + (run beh acts).submitters ≤ 1 ∧
    ((run beh acts).isPollerRunning = false →
      (run beh acts).pollTasks = 0 ∧ (run beh acts).submitters = 0) := by
  have h := inv_run beh acts
  exact ⟨h.onePoller, h.flagOff⟩

theorem single_poll_loop_witness :
    (run behReady lifeActs).pollTasks = 0 ∧
    (run behReady lifeActs).submitters = 0 :=
  (single_poll_loop behReady lifeActs).2 (by decide)

/-! ### Claim C3 -/

/-- Claim C3: from any reachable state in which the executor is active
and no poll-loop task is alive, the critical section of `stop`
atomically deactivates the executor and moves the whole pending queue
into the stop snapshot, leaving the queue empty and the trace untouched,
and the tail of the same `stop` call then completes every snapshot entry
directly with the stopped error — the completions are appended to the
trace and never pass through the dispatch queue — so every operation
that was queued is completed exactly once by the stop path and none was
completed before. -/
theorem stop_snapshot_completes_all (beh : Behavior) (acts : List Action)
    (hd : (run beh acts).destroyed = false)
    (hstpr : (run beh acts).stoppers = [])
    (hact : (run beh acts).active = true)
    (hpoll : (run beh acts).pollTasks = 0) :
    (stepD beh (run beh acts) Action.stopCS).active = false ∧
    (stepD beh (run beh acts) Action.stopCS).waitables = [] ∧
    (stepD beh (run beh acts) Action.stopCS).stoppers =
      [⟨true, (run beh acts).waitables⟩] ∧
    (stepD beh (run beh acts) Action.stopCS).trace = (run beh acts).trace ∧
    (stepD beh (stepD beh (run beh acts) Action.stopCS) Action.stopRest).trace =
      (run beh acts).trace ++ [Ev.pollStopped] ++
      drainEv (run beh acts).dispatchQ ++ [Ev.dispatchStopped] ++
      snapEv (run beh acts).waitables ∧
    (stepD beh (stepD beh (run beh acts) Action.stopCS) Action.stopRest).dispatchQ
      = [] ∧
    (∀ w ∈ (run beh acts).waitables,
      completionsOf (run beh acts) w = 0 ∧
      completionsOf
        (stepD beh (stepD beh (run beh acts) Action.stopCS) Action.stopRest) w
        = 1) := by
  have h := inv_run beh acts
  have hs1 : stepD beh (run beh acts) Action.stopCS = stopCSApply (run beh acts) :=
    stepD_stopCS beh hd
  have hs1stop : (stopCSApply (run beh acts)).stoppers =
      [(⟨true, (run beh acts).waitables⟩ : Stopper)] := by
    simp [stopCSApply, hstpr, hact]
  have hs2 : stepD beh (stopCSApply (run beh acts)) Action.stopRest =
      stopRestApply { stopCSApply (run beh acts) with stoppers := [] }
        (⟨true, (run beh acts).waitables⟩ : Stopper) := by
    exact stepD_stopRest beh hd hs1stop (Or.inr hpoll)
  rw [hs1, hs2]
  refine ⟨rfl, rfl, hs1stop, rfl, ?_, ?_, ?_⟩
  · simp [stopRestApply, stopCSApply]
  · simp [stopRestApply, stopCSApply]
  · intro w hwq
    have hacc : w ∈ (run beh acts).acceptedL := by
      by_contra hna
      have hm := h.ownership w
      rw [if_neg hna] at hm
      simp only [mult] at hm
      have := List.count_pos_iff_mem.mpr hwq
      omega
    have hm := h.ownership w
    rw [if_pos hacc] at hm
    simp only [mult] at hm
    have hc1 : List.count w (run beh acts).waitables = 1 := by
      have := List.count_pos_iff_mem.mpr hwq
      omega
    have hc0 : complCount (run beh acts).trace w = 0 := by omega
    have hcd : List.count w ((run beh acts).dispatchQ.map Prod.fst) = 0 := by
      omega
    refine ⟨hc0, ?_⟩
    simp only [completionsOf, stopRestApply, stopCSApply]
    rw [if_pos trivial]
    simp only [complCount_append, complCount_pollStopped, complCount_dispatchStopped,
      complCount_drainEv, complCount_snapEv]
    omega

theorem stop_snapshot_completes_all_witness :
    completionsOf
      (stepD behNever
        (stepD behNever (run behNever [Action.watchOp 5]) Action.stopCS)
        Action.stopRest) 5 = 1 := by
  have happ := stop_snapshot_completes_all behNever [Action.watchOp 5]
    (by decide) (by decide) (by decide) (by decide)
  exact (happ.2.2.2.2.2.2 5 (by decide)).2

/-! ### Claim C9 -/

/-- Claim C9: the tail of the stop call that deactivated the executor
stops the poll runner strictly before the dispatch runner: in the trace
extension, the poll-runner stop event comes first, then the completions
of every dispatch work item submitted by the final poll-loop iterations,
then the dispatch-runner stop event — and the dispatch queue is empty
afterwards, so no submitted dispatch work is dropped. -/
theorem poll_runner_stops_first (beh : Behavior) (acts : List Action)
    (snap : List Nat) (rest : List Stopper)
    (hd : (run beh acts).destroyed = false)
    (hstop : (run beh acts).stoppers = ⟨true, snap⟩ :: rest)
    (hpoll : (run beh acts).pollTasks = 0) :
    (stepD beh (run beh acts) Action.stopRest).trace =
      (run beh acts).trace ++ [Ev.pollStopped] ++
      drainEv (run beh acts).dispatchQ ++ [Ev.dispatchStopped] ++
      snapEv snap ∧
    (stepD beh (run beh acts) Action.stopRest).dispatchQ = [] ∧
    (stepD beh (run beh acts) Action.stopRest).runnersStopped = true := by
  have hs := stepD_stopRest beh hd hstop (Or.inr hpoll)
  rw [hs]
  refine ⟨?_, ?_, ?_⟩ <;> simp [stopRestApply]



theorem poll_runner_stops_first_witness :
    (stepD behReady (run behReady c9acts) Action.stopRest).trace =
      [Ev.accepted 0, Ev.checked 0 WaitOutcome.ready, Ev.pollStopped,
       Ev.completed 0 Completion.ok, Ev.dispatchStopped] := by
  have happ := poll_runner_stops_first behReady c9acts [] []
    (by decide) (by decide) (by decide)
  rw [happ.1]
  decide

/-! ### Claim C8 -/

theorem stepD_destroy (beh : Behavior) {s : Exec} (hd : s.destroyed = false)
    (h1 : s.stoppers = []) (h2 : s.pollTasks = 0) (h3 : s.submitters = 0)
    (h4 : s.inFlight = none) :
    stepD beh s Action.destroy =
      { stopRestApply { stopCSApply s with stoppers := [] }
          ⟨s.active, s.waitables⟩ with destroyed := true } := by
  simp [stepD, step, stepAux, hd, h1, h2, h3, h4]

/-- Claim C8: destroying the executor performs exactly a `stop` call
(the destroyed state equals the state after the critical section and the
tail of an explicit `stop`, marked destroyed), and when the executor was
still active at destruction the runners are stopped and every operation
still in the pending queue receives exactly one completion, with the
synthetic stopped error. -/
theorem destructor_is_stop (beh : Behavior) (acts : List Action)
    (hd : (run beh acts).destroyed = false)
    (hstpr : (run beh acts).stoppers = [])
    (hpoll : (run beh acts).pollTasks = 0)
    (hsub : (run beh acts).submitters = 0)
    (hinf : (run beh acts).inFlight = none) :
    stepD beh (run beh acts) Action.destroy =
      { stepD beh (stepD beh (run beh acts) Action.stopCS) Action.stopRest with
          destroyed := true } ∧
    ((run beh acts).active = true →
      (stepD beh (run beh acts) Action.destroy).runnersStopped = true ∧
      ∀ w ∈ (run beh acts).waitables,
        completionsOf (run beh acts) w = 0 ∧
        completionsOf (stepD beh (run beh acts) Action.destroy) w = 1 ∧
        Ev.completed w Completion.stopErr ∈
          (stepD beh (run beh acts) Action.destroy).trace) := by
  have h := inv_run beh acts
  have hds := stepD_destroy beh hd hstpr hpoll hsub hinf
  have hs1 : stepD beh (run beh acts) Action.stopCS = stopCSApply (run beh acts) :=
    stepD_stopCS beh hd
  have hs1stop : (stopCSApply (run beh acts)).stoppers =
      [(⟨(run beh acts).active, (run beh acts).waitables⟩ : Stopper)] := by
    simp [stopCSApply, hstpr]
  have hs2 : stepD beh (stopCSApply (run beh acts)) Action.stopRest =
      stopRestApply { stopCSApply (run beh acts) with stoppers := [] }
        (⟨(run beh acts).active, (run beh acts).waitables⟩ : Stopper) :=
    stepD_stopRest beh hd hs1stop (Or.inr hpoll)
  constructor
  · rw [hds, hs1, hs2]
  · intro hact
    have htr : (stepD beh (run beh acts) Action.destroy).trace =
        (run beh acts).trace ++ [Ev.pollStopped] ++
        drainEv (run beh acts).dispatchQ ++ [Ev.dispatchStopped] ++
        snapEv (run beh acts).waitables := by
      rw [hds]
      simp [stopRestApply, stopCSApply, hact]
    constructor
    · rw [hds]
      simp [stopRestApply, stopCSApply, hact]
    · intro w hwq
      have hacc : w ∈ (run beh acts).acceptedL := by
        by_contra hna
        have hm := h.ownership w
        rw [if_neg hna] at hm
        simp only [mult] at hm
        have := List.count_pos_iff_mem.mpr hwq
        omega
      have hm := h.ownership w
      rw [if_pos hacc] at hm
      simp only [mult] at hm
      have hc1 : List.count w (run beh acts).waitables = 1 := by
        have := List.count_pos_iff_mem.mpr hwq
        omega
      have hc0 : complCount (run beh acts).trace w = 0 := by omega
      have hcd : List.count w ((run beh acts).dispatchQ.map Prod.fst) = 0 := by
        omega
      refine ⟨hc0, ?_, ?_⟩
      · simp only [completionsOf, htr, complCount_append, complCount_pollStopped,
          complCount_dispatchStopped, complCount_drainEv, complCount_snapEv]
        omega
      · rw [htr]
        refine List.mem_append_right _ ?_
        exact List.mem_map.mpr ⟨w, hwq, rfl⟩



theorem destructor_is_stop_witness :
    completionsOf (stepD behNever (run behNever c8acts) Action.destroy) 3 = 1 := by
  have happ := destructor_is_stop behNever c8acts
    (by decide) (by decide) (by decide) (by decide) (by decide)
  exact ((happ.2 (by decide)).2 3 (by decide)).2.1

/-! ### Claim C5 (corrected) -/



/-- Counterexample to claim C5 as stated: after `orphanActs` the executor
is inactive with `stop` fully finished, yet operation 0 sits in the
pending queue with no completion; a second `stop` call then invokes
`complete` on it — so a `stop` on an already-inactive executor does
dispatch an operation, and the pending queue was not empty. -/
theorem stop_idempotent_counterexample :
    (run behNever orphanActs).active = false ∧
    (run behNever orphanActs).stoppers = [] ∧
    (run behNever orphanActs).waitables = [0] ∧
    completionsOf (run behNever orphanActs) 0 = 0 ∧
    completionsOf
      (run behNever (orphanActs ++ [Action.stopCS, Action.stopRest])) 0 = 1 ∧
    Ev.completed 0 Completion.stopErr ∈
      (run behNever (orphanActs ++ [Action.stopCS, Action.stopRest])).trace := by
  refine ⟨by decide, by decide, by decide, by decide, by decide, by decide⟩

/-- Claim C5 as amended: calling `stop` when the executor is already
inactive stops neither task runner (no new runner-stop events are
emitted and the runner-stop flag is unchanged), and it invokes
`complete` — with the stopped error — on exactly the operations then in
the pending queue; in particular it dispatches nothing when that queue
is empty.  (The queue is usually empty at that point, but an operation
that was in flight during the first `stop` and was requeued after its
`wait` returned false can still be present, and is then completed by the
second `stop`.) -/
theorem stop_inactive_amended (beh : Behavior) (acts : List Action)
    (hd : (run beh acts).destroyed = false)
    (hstpr : (run beh acts).stoppers = [])
    (hinact : (run beh acts).active = false) :
    (stepD beh (stepD beh (run beh acts) Action.stopCS) Action.stopRest).runnersStopped
      = (run beh acts).runnersStopped ∧
    (stepD beh (stepD beh (run beh acts) Action.stopCS) Action.stopRest).trace =
      (run beh acts).trace ++ snapEv (run beh acts).waitables ∧
    ((run beh acts).waitables = [] →
      (stepD beh (stepD beh (run beh acts) Action.stopCS) Action.stopRest).trace =
        (run beh acts).trace) ∧
    (stepD beh (stepD beh (run beh acts) Action.stopCS) Action.stopRest).trace.count
        Ev.pollStopped = (run beh acts).trace.count Ev.pollStopped ∧
    (stepD beh (stepD beh (run beh acts) Action.stopCS) Action.stopRest).trace.count
        Ev.dispatchStopped = (run beh acts).trace.count Ev.dispatchStopped := by
  have hs1 : stepD beh (run beh acts) Action.stopCS = stopCSApply (run beh acts) :=
    stepD_stopCS beh hd
  have hs1stop : (stopCSApply (run beh acts)).stoppers =
      [(⟨(run beh acts).active, (run beh acts).waitables⟩ : Stopper)] := by
    simp [stopCSApply, hstpr]
  have hwa : ((⟨(run beh acts).active, (run beh acts).waitables⟩ : Stopper)).wasActive
      = false := hinact
  have hs2 : stepD beh (stopCSApply (run beh acts)) Action.stopRest =
      stopRestApply { stopCSApply (run beh acts) with stoppers := [] }
        (⟨(run beh acts).active, (run beh acts).waitables⟩ : Stopper) :=
    stepD_stopRest beh hd hs1stop (Or.inl hwa)
  rw [hs1, hs2]
  have hne : ((⟨(run beh acts).active, (run beh acts).waitables⟩ : Stopper)).wasActive
      ≠ true := by
    rw [hwa]
    exact Bool.false_ne_true
  refine ⟨?_, ?_, ?_, ?_, ?_⟩
  · simp [stopRestApply, stopCSApply, hinact]
  · simp [stopRestApply, stopCSApply, hinact]
  · intro hempty
    simp [stopRestApply, stopCSApply, hinact, hempty, snapEv]
  · simp [stopRestApply, stopCSApply, hinact, List.count_append]
  · simp [stopRestApply, stopCSApply, hinact, List.count_append]

theorem stop_inactive_amended_witness :
    (stepD behNever
        (stepD behNever (run behNever [Action.stopCS, Action.stopRest])
          Action.stopCS)
        Action.stopRest).trace =
      (run behNever [Action.stopCS, Action.stopRest]).trace := by
  have happ := stop_inactive_amended behNever [Action.stopCS, Action.stopRest]
    (by decide) (by decide) (by decide)
  exact happ.2.2.1 (by decide)

/-! ### Claim C4 -/

theorem discard_step {beh : Behavior} {s : Exec} {w : Nat} (a : Action)
    (h1 : w ∈ s.discardedL) (h2 : w ∉ s.acceptedL) :
    w ∈ (stepD beh s a).discardedL ∧ w ∉ (stepD beh s a).acceptedL := by
  cases hstep : step beh s a with
  | none => simp only [stepD, hstep, Option.getD_none]; exact ⟨h1, h2⟩
  | some t =>
    simp only [stepD, hstep, Option.getD_some]
    unfold step at hstep
    by_cases hdd : s.destroyed = true
    · rw [if_pos hdd] at hstep
      exact Option.noConfusion hstep
    rw [if_neg hdd] at hstep
    cases a with
    | watchOp v =>
      simp only [stepAux] at hstep
      split_ifs at hstep with hf ha hp
      · have ht := Option.some.inj hstep; subst ht
        exact ⟨List.mem_append_left _ h1, h2⟩
      · have ht := Option.some.inj hstep; subst ht
        refine ⟨h1, ?_⟩
        intro hc
        rcases List.mem_append.mp hc with hc | hc
        · exact h2 hc
        · simp at hc; subst hc; exact hf (Or.inr h1)
      · have ht := Option.some.inj hstep; subst ht
        refine ⟨h1, ?_⟩
        intro hc
        rcases List.mem_append.mp hc with hc | hc
        · exact h2 hc
        · simp at hc; subst hc; exact hf (Or.inr h1)
    | submitPoll =>
      simp only [stepAux] at hstep
      split at hstep
      · exact Option.noConfusion hstep
      · have ht := Option.some.inj hstep; subst ht; exact ⟨h1, h2⟩
    | submitThrow =>
      simp only [stepAux] at hstep
      split at hstep
      · exact Option.noConfusion hstep
      · have ht := Option.some.inj hstep; subst ht; exact ⟨h1, h2⟩
    | pollPop =>
      simp only [stepAux] at hstep
      split at hstep
      · exact Option.noConfusion hstep
      · split at hstep
        · exact Option.noConfusion hstep
        · split at hstep
          · split at hstep
            · exact Option.noConfusion hstep
            · have ht := Option.some.inj hstep; subst ht; exact ⟨h1, h2⟩
          · exact Option.noConfusion hstep
    | pollDie =>
      simp only [stepAux] at hstep
      split at hstep
      · exact Option.noConfusion hstep
      · split at hstep
        · exact Option.noConfusion hstep
        · split at hstep
          · have ht := Option.some.inj hstep; subst ht; exact ⟨h1, h2⟩
          · exact Option.noConfusion hstep
    | pollFinish =>
      simp only [stepAux] at hstep
      split at hstep
      · exact Option.noConfusion hstep
      · split at hstep <;>
          (have ht := Option.some.inj hstep; subst ht; exact ⟨h1, h2⟩)
    | dispatchRun =>
      simp only [stepAux] at hstep
      split at hstep
      · exact Option.noConfusion hstep
      · have ht := Option.some.inj hstep; subst ht; exact ⟨h1, h2⟩
    | stopCS =>
      simp only [stepAux] at hstep
      have ht := Option.some.inj hstep; subst ht
      exact ⟨h1, h2⟩
    | stopRest =>
      simp only [stepAux] at hstep
      split at hstep
      · exact Option.noConfusion hstep
      · split at hstep
        · exact Option.noConfusion hstep
        · have ht := Option.some.inj hstep; subst ht
          unfold stopRestApply
          split <;> exact ⟨h1, h2⟩
    | destroy =>
      simp only [stepAux] at hstep
      split_ifs at hstep with hpre
      have ht := Option.some.inj hstep; subst ht
      unfold stopRestApply
      split <;> exact ⟨h1, h2⟩

theorem discard_runFrom {beh : Behavior} {w : Nat} (acts : List Action) :
    ∀ s : Exec, w ∈ s.discardedL → w ∉ s.acceptedL →
      w ∈ (runFrom beh s acts).discardedL ∧ w ∉ (runFrom beh s acts).acceptedL := by
  induction acts with
  | nil => intro s h1 h2; exact ⟨h1, h2⟩
  | cons a rest ih =>
    intro s h1 h2
    obtain ⟨h1a, h2a⟩ := discard_step a h1 h2
    exact ih _ h1a h2a

/-- Claim C4: an operation handed to `watch` after the executor has
become inactive is discarded: `watch` leaves the pending queue and the
accepted set unchanged, records the operation as dropped, and no matter
what happens afterwards the executor never invokes `complete` on it. -/
theorem watch_after_stop_discards (beh : Behavior) (acts acts2 : List Action)
    (w : Nat)
    (hinact : (run beh acts).active = false)
    (hdest : (run beh acts).destroyed = false)
    (hf1 : w ∉ (run beh acts).acceptedL)
    (hf2 : w ∉ (run beh acts).discardedL) :
    (stepD beh (run beh acts) (Action.watchOp w)).waitables =
      (run beh acts).waitables ∧
    (stepD beh (run beh acts) (Action.watchOp w)).acceptedL =
      (run beh acts).acceptedL ∧
    w ∈ (stepD beh (run beh acts) (Action.watchOp w)).discardedL ∧
    completionsOf (run beh (acts ++ Action.watchOp w :: acts2)) w = 0 := by
  have hfresh : ¬(w ∈ (run beh acts).acceptedL ∨ w ∈ (run beh acts).discardedL) := by
    rintro (hc | hc)
    · exact hf1 hc
    · exact hf2 hc
  have hw : stepD beh (run beh acts) (Action.watchOp w) =
      { run beh acts with
        discardedL := (run beh acts).discardedL ++ [w],
        trace := (run beh acts).trace ++ [Ev.discarded w] } := by
    simp [stepD, step, stepAux, hdest, hfresh, hinact]
  refine ⟨by rw [hw], by rw [hw], by rw [hw]; simp, ?_⟩
  have hrun : run beh (acts ++ Action.watchOp w :: acts2) =
      runFrom beh (stepD beh (run beh acts) (Action.watchOp w)) acts2 := by
    rw [run_append]
    rfl
  have hmem : w ∈ (stepD beh (run beh acts) (Action.watchOp w)).discardedL ∧
      w ∉ (stepD beh (run beh acts) (Action.watchOp w)).acceptedL := by
    rw [hw]
    exact ⟨by simp, by simpa using hf1⟩
  obtain ⟨_, hnacc⟩ := discard_runFrom acts2 _ hmem.1 hmem.2
  have h := inv_run beh (acts ++ Action.watchOp w :: acts2)
  have hm := h.ownership w
  rw [hrun] at hm
  rw [if_neg hnacc] at hm
  simp only [mult] at hm
  simp only [completionsOf, hrun]
  omega

theorem watch_after_stop_discards_witness :
    completionsOf
      (run behNever ([Action.stopCS, Action.stopRest] ++
        Action.watchOp 9 :: [Action.stopCS, Action.stopRest, Action.destroy])) 9
      = 0 := by
  have happ := watch_after_stop_discards behNever
    [Action.stopCS, Action.stopRest]
    [Action.stopCS, Action.stopRest, Action.destroy] 9
    (by decide) (by decide) (by decide) (by decide)
  exact happ.2.2.2

/-! ### Claim C10 -/

theorem stuck_step {beh : Behavior} {s : Exec} (a : Action)
    (h1 : s.pollTasks = 0) (h2 : s.submitters = 0)
    (h3 : s.isPollerRunning = true) :
    (stepD beh s a).pollTasks = 0 ∧ (stepD beh s a).submitters = 0 ∧
      (stepD beh s a).isPollerRunning = true := by
  cases hstep : step beh s a with
  | none => simp only [stepD, hstep, Option.getD_none]; exact ⟨h1, h2, h3⟩
  | some t =>
    simp only [stepD, hstep, Option.getD_some]
    unfold step at hstep
    by_cases hdd : s.destroyed = true
    · rw [if_pos hdd] at hstep
      exact Option.noConfusion hstep
    rw [if_neg hdd] at hstep
    cases a with
    | watchOp v =>
      simp only [stepAux] at hstep
      split_ifs at hstep with hf ha hp
      · have ht := Option.some.inj hstep; subst ht; exact ⟨h1, h2, h3⟩
      · have ht := Option.some.inj hstep; subst ht; exact ⟨h1, h2, h3⟩
    | submitPoll =>
      simp only [stepAux] at hstep
      split at hstep
      · exact Option.noConfusion hstep
      · rename_i n heq
        exact absurd (h2.symm.trans heq) (by simp)
    | submitThrow =>
      simp only [stepAux] at hstep
      split at hstep
      · exact Option.noConfusion hstep
      · rename_i n heq
        exact absurd (h2.symm.trans heq) (by simp)
    | pollPop =>
      simp only [stepAux] at hstep
      split at hstep
      · exact Option.noConfusion hstep
      · rename_i hq
        exact absurd h1 hq
    | pollDie =>
      simp only [stepAux] at hstep
      split at hstep
      · exact Option.noConfusion hstep
      · rename_i hq
        exact absurd h1 hq
    | pollFinish =>
      simp only [stepAux] at hstep
      split at hstep
      · exact Option.noConfusion hstep
      · split at hstep <;>
          (have ht := Option.some.inj hstep; subst ht; exact ⟨h1, h2, h3⟩)
    | dispatchRun =>
      simp only [stepAux] at hstep
      split at hstep
      · exact Option.noConfusion hstep
      · have ht := Option.some.inj hstep; subst ht; exact ⟨h1, h2, h3⟩
    | stopCS =>
      simp only [stepAux] at hstep
      have ht := Option.some.inj hstep; subst ht
      exact ⟨h1, h2, h3⟩
    | stopRest =>
      simp only [stepAux] at hstep
      split at hstep
      · exact Option.noConfusion hstep
      · split at hstep
        · exact Option.noConfusion hstep
        · have ht := Option.some.inj hstep; subst ht
          unfold stopRestApply
          split <;> exact ⟨h1, h2, h3⟩
    | destroy =>
      simp only [stepAux] at hstep
      split_ifs at hstep with hpre
      have ht := Option.some.inj hstep; subst ht
      unfold stopRestApply
      split <;> exact ⟨h1, h2, h3⟩

theorem stuck_runFrom {beh : Behavior} (acts : List Action) :
    ∀ s : Exec, s.pollTasks = 0 → s.submitters = 0 → s.isPollerRunning = true →
      (runFrom beh s acts).pollTasks = 0 ∧
      (runFrom beh s acts).submitters = 0 ∧
      (runFrom beh s acts).isPollerRunning = true := by
  induction acts with
  | nil => intro s h1 h2 h3; exact ⟨h1, h2, h3⟩
  | cons a rest ih =>
    intro s h1 h2 h3
    obtain ⟨h1a, h2a, h3a⟩ := stuck_step a h1 h2 h3
    exact ih _ h1a h2a h3a

/-- Claim C10: when `watch` is the call that would start a new poll loop
(the executor is active and no poller is running), it first enqueues the
operation and sets the poller flag, and only then asks for the
shared-ownership handle; if `shared_from_this` throws, the operation is
left accepted in the queue, the flag stays set, no poll-loop task was
ever created, and — because no later `watch` can claim the flag again —
no poll loop is ever submitted from then on. -/
theorem watch_shared_from_this_throws (beh : Behavior) (acts : List Action)
    (w : Nat)
    (hact : (run beh acts).active = true)
    (hflag : (run beh acts).isPollerRunning = false)
    (hdest : (run beh acts).destroyed = false)
    (hf1 : w ∉ (run beh acts).acceptedL)
    (hf2 : w ∉ (run beh acts).discardedL) :
    (stepD beh (run beh acts) (Action.watchOp w)).waitables =
      (run beh acts).waitables ++ [w] ∧
    (stepD beh (run beh acts) (Action.watchOp w)).acceptedL =
      (run beh acts).acceptedL ++ [w] ∧
    (stepD beh (run beh acts) (Action.watchOp w)).isPollerRunning = true ∧
    (stepD beh (run beh acts) (Action.watchOp w)).pollTasks = 0 ∧
    w ∈ (stepD beh (stepD beh (run beh acts) (Action.watchOp w))
          Action.submitThrow).waitables ∧
    (stepD beh (stepD beh (run beh acts) (Action.watchOp w))
      Action.submitThrow).pollTasks = 0 ∧
    (stepD beh (stepD beh (run beh acts) (Action.watchOp w))
      Action.submitThrow).isPollerRunning = true ∧
    (∀ acts2,
      (runFrom beh
        (stepD beh (stepD beh (run beh acts) (Action.watchOp w))
          Action.submitThrow) acts2).pollTasks = 0) := by
  have h := inv_run beh acts
  obtain ⟨hp0, hs0⟩ := h.flagOff hflag
  have hfresh : ¬(w ∈ (run beh acts).acceptedL ∨ w ∈ (run beh acts).discardedL) := by
    rintro (hc | hc)
    · exact hf1 hc
    · exact hf2 hc
  have hnact : ¬(run beh acts).active = false := by
    rw [hact]
    exact Bool.noConfusion
  have hw : stepD beh (run beh acts) (Action.watchOp w) =
      { run beh acts with
        waitables := (run beh acts).waitables ++ [w],
        acceptedL := (run beh acts).acceptedL ++ [w],
        isPollerRunning := true,
        submitters := (run beh acts).submitters + 1,
        trace := (run beh acts).trace ++ [Ev.accepted w] } := by
    simp [stepD, step, stepAux, hdest, hfresh, hnact, hflag]
  have hthrow : stepD beh (stepD beh (run beh acts) (Action.watchOp w))
      Action.submitThrow =
      { stepD beh (run beh acts) (Action.watchOp w) with
        submitters := (run beh acts).submitters } := by
    rw [hw]
    simp [stepD, step, stepAux, hdest]
  refine ⟨by rw [hw], by rw [hw], by rw [hw], by rw [hw]; exact hp0,
    ?_, ?_, ?_, ?_⟩
  · rw [hthrow, hw]; simp
  · rw [hthrow, hw]; exact hp0
  · rw [hthrow, hw]
  · intro acts2
    refine (stuck_runFrom acts2 _ ?_ ?_ ?_).1
    · rw [hthrow, hw]; exact hp0
    · rw [hthrow, hw]; exact hs0
    · rw [hthrow, hw]

theorem watch_shared_from_this_throws_witness :
    (runFrom behNever
      (stepD behNever (stepD behNever (run behNever []) (Action.watchOp 4))
        Action.submitThrow)
      [Action.watchOp 5, Action.pollPop, Action.pollDie]).pollTasks = 0 := by
  have happ := watch_shared_from_this_throws behNever [] 4
    (by decide) (by decide) (by decide) (by decide) (by decide)
  exact happ.2.2.2.2.2.2.2 [Action.watchOp 5, Action.pollPop, Action.pollDie]

/-! ### Claim C6 -/

/-- Claim C6: when `wait` on the popped operation throws, the poll loop
captures the error and treats the operation as ready: the loop itself is
unaffected (its task count, the poller flag and the remaining queue are
unchanged, and the iteration completes normally rather than rethrowing),
the operation is handed to the dispatch runner paired with exactly the
captured error, and executing that dispatch work invokes `complete` with
exactly that error, once. -/
theorem wait_error_forwarded (beh : Behavior) (acts : List Action)
    (w e : Nat)
    (hif : (run beh acts).inFlight = some w)
    (hbeh : beh w ((run beh acts).waitCount w) = WaitOutcome.failed e)
    (hdq : (run beh acts).dispatchQ = []) :
    (stepD beh (run beh acts) Action.pollFinish).pollTasks =
      (run beh acts).pollTasks ∧
    (stepD beh (run beh acts) Action.pollFinish).isPollerRunning =
      (run beh acts).isPollerRunning ∧
    (stepD beh (run beh acts) Action.pollFinish).waitables =
      (run beh acts).waitables ∧
    (stepD beh (run beh acts) Action.pollFinish).inFlight = none ∧
    (stepD beh (run beh acts) Action.pollFinish).dispatchQ = [(w, some e)] ∧
    (stepD beh (stepD beh (run beh acts) Action.pollFinish)
        Action.dispatchRun).trace =
      (run beh acts).trace ++ [Ev.checked w (WaitOutcome.failed e)] ++
        [Ev.completed w (Completion.waitErr e)] ∧
    completionsOf
        (stepD beh (stepD beh (run beh acts) Action.pollFinish)
          Action.dispatchRun) w =
      completionsOf (run beh acts) w + 1 := by
  have h := inv_run beh acts
  have hdest : (run beh acts).destroyed = false := by
    cases hx : (run beh acts).destroyed
    · rfl
    · obtain ⟨_, _, hin, _⟩ := h.deadQuiet hx
      rw [hif] at hin
      exact Option.noConfusion hin
  have hA : stepD beh (run beh acts) Action.pollFinish =
      { run beh acts with
        inFlight := none,
        waitCount := fun v => if v = w then (run beh acts).waitCount w + 1
                     else (run beh acts).waitCount v,
        trace := (run beh acts).trace ++ [Ev.checked w (WaitOutcome.failed e)],
        dispatchQ := [(w, some e)] } := by
    simp [stepD, step, stepAux, hdest, hif, hbeh, hdq]
  have hB : stepD beh (stepD beh (run beh acts) Action.pollFinish)
      Action.dispatchRun =
      { stepD beh (run beh acts) Action.pollFinish with
        dispatchQ := [],
        trace := (run beh acts).trace ++ [Ev.checked w (WaitOutcome.failed e)] ++
          [Ev.completed w (Completion.waitErr e)] } := by
    rw [hA]
    simp [stepD, step, stepAux, hdest, complOf]
  refine ⟨by rw [hA], by rw [hA], by rw [hA], by rw [hA], by rw [hA],
    by rw [hB, hA], ?_⟩
  rw [hB, hA]
  simp only [completionsOf, complCount_append, complCount_checked,
    complCount_completed]
  simp



theorem wait_error_forwarded_witness :
    completionsOf
        (stepD behFail7 (stepD behFail7 (run behFail7 c6acts) Action.pollFinish)
          Action.dispatchRun) 0 =
      completionsOf (run behFail7 c6acts) 0 + 1 := by
  have happ := wait_error_forwarded behFail7 c6acts 0 7
    (by decide) (by decide) (by decide)
  exact happ.2.2.2.2.2.2

/-! ### Claim C7: round-robin fairness machinery -/



theorem firstBefore_cons_x {x w : Nat} (hxw : x ≠ w) (l : List Nat) :
    firstBefore x w (x :: l) = true := by
  simp [firstBefore, hxw]

theorem firstBefore_cons_other {x w y : Nat} (hyw : y ≠ w) (hyx : y ≠ x)
    (l : List Nat) : firstBefore x w (y :: l) = firstBefore x w l := by
  simp [firstBefore, hyw, hyx]

theorem firstBefore_of_not_mem {x w : Nat} {l : List Nat} (h : w ∉ l) :
    firstBefore x w l = true := by
  induction l with
  | nil => rfl
  | cons y l ih =>
    have hyw : y ≠ w := by
      intro hc
      exact h (hc ▸ List.mem_cons_self y l)
    by_cases hyx : y = x
    · subst hyx
      by_cases hxw : y = w
      · exact absurd hxw hyw
      · exact firstBefore_cons_x hxw l
    · rw [firstBefore_cons_other hyw hyx]
      exact ih (fun hc => h (List.mem_cons_of_mem _ hc))

theorem newChecks_nil (beh : Behavior) (s : Exec) : newChecks beh s [] = [] := by
  simp [newChecks, runFrom, List.drop_length]

/-- Each step only appends to the trace, and the appended events contain
either no `wait` check at all or exactly the check of the operation that
was in flight; alongside, how the step can change the pending queue and
the in-flight slot, and that acceptance is monotone. -/
theorem stepD_shape (beh : Behavior) (s : Exec) (a : Action) :
    (∀ v ∈ s.acceptedL, v ∈ (stepD beh s a).acceptedL) ∧
    ((∃ ext, (stepD beh s a).trace = s.trace ++ ext ∧ checksT ext = [] ∧
       (((stepD beh s a).waitables = s.waitables ∧
           (stepD beh s a).inFlight = s.inFlight) ∨
        (∃ v, v ∉ s.acceptedL ∧
          (stepD beh s a).waitables = s.waitables ++ [v] ∧
          (stepD beh s a).inFlight = s.inFlight) ∨
        (∃ v rest, s.waitables = v :: rest ∧ s.inFlight = none ∧
          (stepD beh s a).waitables = rest ∧
          (stepD beh s a).inFlight = some v) ∨
        ((stepD beh s a).waitables = [] ∧
          (stepD beh s a).inFlight = s.inFlight))) ∨
     (∃ y ext, s.inFlight = some y ∧ (stepD beh s a).trace = s.trace ++ ext ∧
       checksT ext = [y] ∧ (stepD beh s a).inFlight = none ∧
       ((stepD beh s a).waitables = s.waitables ∨
        (stepD beh s a).waitables = s.waitables ++ [y]))) := by
  cases hstep : step beh s a with
  | none =>
    have hD : stepD beh s a = s := by simp [stepD, hstep]
    rw [hD]
    exact ⟨fun v hv => hv, Or.inl ⟨[], by simp, rfl, Or.inl ⟨rfl, rfl⟩⟩⟩
  | some t =>
    have hD : stepD beh s a = t := by simp [stepD, hstep]
    rw [hD]
    unfold step at hstep
    by_cases hdd : s.destroyed = true
    · rw [if_pos hdd] at hstep
      exact Option.noConfusion hstep
    rw [if_neg hdd] at hstep
    cases a with
    | watchOp v =>
      simp only [stepAux] at hstep
      split_ifs at hstep with hf ha hp
      · have ht := Option.some.inj hstep; subst ht
        exact ⟨fun u hu => hu,
          Or.inl ⟨[Ev.discarded v], rfl, rfl, Or.inl ⟨rfl, rfl⟩⟩⟩
      · have ht := Option.some.inj hstep; subst ht
        refine ⟨fun u hu => List.mem_append_left _ hu,
          Or.inl ⟨[Ev.accepted v], rfl, rfl, Or.inr (Or.inl ⟨v, ?_, rfl, rfl⟩)⟩⟩
        intro hc
        exact hf (Or.inl hc)
      · have ht := Option.some.inj hstep; subst ht
        refine ⟨fun u hu => List.mem_append_left _ hu,
          Or.inl ⟨[Ev.accepted v], rfl, rfl, Or.inr (Or.inl ⟨v, ?_, rfl, rfl⟩)⟩⟩
        intro hc
        exact hf (Or.inl hc)
    | submitPoll =>
      simp only [stepAux] at hstep
      split at hstep
      · exact Option.noConfusion hstep
      · have ht := Option.some.inj hstep; subst ht
        exact ⟨fun u hu => hu, Or.inl ⟨[], by simp, rfl, Or.inl ⟨rfl, rfl⟩⟩⟩
    | submitThrow =>
      simp only [stepAux] at hstep
      split at hstep
      · exact Option.noConfusion hstep
      · have ht := Option.some.inj hstep; subst ht
        exact ⟨fun u hu => hu, Or.inl ⟨[], by simp, rfl, Or.inl ⟨rfl, rfl⟩⟩⟩
    | pollPop =>
      simp only [stepAux] at hstep
      split at hstep
      · exact Option.noConfusion hstep
      · split at hstep
        · exact Option.noConfusion hstep
        · rename_i hif
          split at hstep
          · split at hstep
            · exact Option.noConfusion hstep
            · rename_i v rest hwl
              have ht := Option.some.inj hstep; subst ht
              exact ⟨fun u hu => hu,
                Or.inl ⟨[], by simp, rfl,
                  Or.inr (Or.inr (Or.inl ⟨v, rest, hwl, hif, rfl, rfl⟩))⟩⟩
          · exact Option.noConfusion hstep
    | pollDie =>
      simp only [stepAux] at hstep
      split at hstep
      · exact Option.noConfusion hstep
      · split at hstep
        · exact Option.noConfusion hstep
        · split at hstep
          · have ht := Option.some.inj hstep; subst ht
            exact ⟨fun u hu => hu, Or.inl ⟨[], by simp, rfl, Or.inl ⟨rfl, rfl⟩⟩⟩
          · exact Option.noConfusion hstep
    | pollFinish =>
      simp only [stepAux] at hstep
      split at hstep
      · exact Option.noConfusion hstep
      · rename_i y hif
        split at hstep <;>
          (have ht := Option.some.inj hstep; subst ht) <;>
          refine ⟨fun u hu => hu, Or.inr ⟨y, [Ev.checked y _], hif, rfl, rfl, rfl, ?_⟩⟩
        · exact Or.inl rfl
        · exact Or.inr rfl
        · exact Or.inl rfl
    | dispatchRun =>
      simp only [stepAux] at hstep
      split at hstep
      · exact Option.noConfusion hstep
      · have ht := Option.some.inj hstep; subst ht
        exact ⟨fun u hu => hu,
          Or.inl ⟨[Ev.completed _ _], rfl, rfl, Or.inl ⟨rfl, rfl⟩⟩⟩
    | stopCS =>
      simp only [stepAux] at hstep
      have ht := Option.some.inj hstep; subst ht
      exact ⟨fun u hu => hu, Or.inl ⟨[], by simp [stopCSApply], rfl,
        Or.inr (Or.inr (Or.inr ⟨rfl, rfl⟩))⟩⟩
    | stopRest =>
      simp only [stepAux] at hstep
      split at hstep
      · exact Option.noConfusion hstep
      · rename_i r rest hstop
        split at hstep
        · exact Option.noConfusion hstep
        · have ht := Option.some.inj hstep; subst ht
          by_cases hwa : r.wasActive = true
          · refine ⟨fun u hu => ?_, Or.inl
              ⟨[Ev.pollStopped] ++ drainEv s.dispatchQ ++ [Ev.dispatchStopped] ++
                snapEv r.snap, ?_, by simp, Or.inl ⟨?_, ?_⟩⟩⟩ <;>
              simp only [stopRestApply, if_pos hwa]
            · exact hu
            · simp
          · refine ⟨fun u hu => ?_,
              Or.inl ⟨snapEv r.snap, ?_, by simp, Or.inl ⟨?_, ?_⟩⟩⟩ <;>
              simp only [stopRestApply, if_neg hwa]
            exact hu
    | destroy =>
      simp only [stepAux] at hstep
      split_ifs at hstep with hpre
      have ht := Option.some.inj hstep; subst ht
      by_cases hwa : s.active = true
      · refine ⟨fun u hu => ?_, Or.inl
          ⟨[Ev.pollStopped] ++ drainEv s.dispatchQ ++ [Ev.dispatchStopped] ++
            snapEv s.waitables, ?_, by simp,
            Or.inr (Or.inr (Or.inr ⟨?_, ?_⟩))⟩⟩ <;>
          simp only [stopRestApply, stopCSApply, if_pos hwa]
        · exact hu
        · simp
      · refine ⟨fun u hu => ?_, Or.inl ⟨snapEv s.waitables, ?_, by simp,
            Or.inr (Or.inr (Or.inr ⟨?_, ?_⟩))⟩⟩ <;>
          simp only [stopRestApply, stopCSApply, if_neg hwa]
        exact hu

theorem runFrom_trace_ext (beh : Behavior) (acts : List Action) :
    ∀ s : Exec, ∃ ext, (runFrom beh s acts).trace = s.trace ++ ext := by
  induction acts with
  | nil => intro s; exact ⟨[], by simp [runFrom]⟩
  | cons a rest ih =>
    intro s
    obtain ⟨e2, he2⟩ := ih (stepD beh s a)
    rcases (stepD_shape beh s a).2 with ⟨e1, he1, _⟩ | ⟨y, e1, _, he1, _⟩ <;>
      exact ⟨e1 ++ e2, by
        show (runFrom beh (stepD beh s a) rest).trace = _
        rw [he2, he1, List.append_assoc]⟩

theorem newChecks_cons (beh : Behavior) (s : Exec) (a : Action)
    (acts : List Action) {ext : List Ev}
    (hext : (stepD beh s a).trace = s.trace ++ ext) :
    newChecks beh s (a :: acts) =
      checksT ext ++ newChecks beh (stepD beh s a) acts := by
  obtain ⟨e2, he2⟩ := runFrom_trace_ext beh acts (stepD beh s a)
  simp only [newChecks]
  rw [show runFrom beh s (a :: acts) = runFrom beh (stepD beh s a) acts from rfl,
    he2, hext, List.drop_left, List.append_assoc, List.drop_left, checksT_append]

theorem mult_le_one {beh : Behavior} {s : Exec} (h : Inv beh s) (v : Nat) :
    mult s v ≤ 1 := by
  rw [h.ownership v]
  by_cases hv : v ∈ s.acceptedL <;> simp [hv]

theorem waitables_inFlight_count {beh : Behavior} {s : Exec} (h : Inv beh s)
    (v : Nat) : s.waitables.count v + inFlightCount s.inFlight v ≤ 1 := by
  have hm := mult_le_one h v
  simp only [mult] at hm
  omega

theorem accepted_of_mem_waitables {beh : Behavior} {s : Exec} (h : Inv beh s)
    {v : Nat} (hv : v ∈ s.waitables) : v ∈ s.acceptedL := by
  by_contra hna
  have hm := h.ownership v
  rw [if_neg hna] at hm
  simp only [mult] at hm
  have := List.count_pos_iff_mem.mpr hv
  omega

/-- An operation that has left the queue and the in-flight slot is never
`wait`-checked again. -/
theorem checks_avoid_removed (beh : Behavior) {w : Nat} (acts : List Action) :
    ∀ s : Exec, Inv beh s → w ∈ s.acceptedL → w ∉ s.waitables →
      s.inFlight ≠ some w → w ∉ newChecks beh s acts := by
  induction acts with
  | nil => intro s _ _ _ _; rw [newChecks_nil]; simp
  | cons a rest ih =>
    intro s hInv hacc hq hif
    obtain ⟨hmono, hsh⟩ := stepD_shape beh s a
    rcases hsh with ⟨ext, hext, hch, hcase⟩ | ⟨y, ext, hy, hext, hch, hifn, hwl⟩
    · rw [newChecks_cons beh s a rest hext, hch, List.nil_append]
      rcases hcase with ⟨h1, h2⟩ | ⟨v, hvna, h1, h2⟩ |
        ⟨v, rest2, hwlv, hifn0, h1, h2⟩ | ⟨h1, h2⟩
      · refine ih _ (inv_stepD hInv) (hmono w hacc) ?_ ?_
        · rw [h1]; exact hq
        · rw [h2]; exact hif
      · refine ih _ (inv_stepD hInv) (hmono w hacc) ?_ ?_
        · rw [h1]
          intro hc
          rcases List.mem_append.mp hc with hc | hc
          · exact hq hc
          · simp at hc
            subst hc
            exact hvna hacc
        · rw [h2]; exact hif
      · refine ih _ (inv_stepD hInv) (hmono w hacc) ?_ ?_
        · rw [h1]
          intro hc
          exact hq (hwlv ▸ List.mem_cons_of_mem v hc)
        · rw [h2]
          intro hc
          have hvw : v = w := Option.some.inj hc
          subst hvw
          exact hq (hwlv ▸ List.mem_cons_self v rest2)
      · refine ih _ (inv_stepD hInv) (hmono w hacc) ?_ ?_
        · rw [h1]; simp
        · rw [h2]; exact hif
    · have hyw : y ≠ w := fun hc => hif (hc ▸ hy)
      rw [newChecks_cons beh s a rest hext, hch]
      intro hc
      rcases List.mem_append.mp hc with hc | hc
      · simp at hc
        exact hyw hc.symm
      · refine ih _ (inv_stepD hInv) (hmono w hacc) ?_ ?_ hc
        · rcases hwl with h1 | h1
          · rw [h1]; exact hq
          · rw [h1]
            intro hm
            rcases List.mem_append.mp hm with hm | hm
            · exact hq hm
            · simp at hm
              exact hyw hm.symm
        · rw [hifn]
          exact fun hcc => Option.noConfusion hcc

/-- While some operation `x` is in flight, the next check performed is
the check of `x`: any `w ≠ x` is not checked before `x` is. -/
theorem checks_start_with_inflight (beh : Behavior) {x w : Nat}
    (hxw : x ≠ w) (acts : List Action) :
    ∀ s : Exec, Inv beh s → s.inFlight = some x →
      firstBefore x w (newChecks beh s acts) = true := by
  induction acts with
  | nil => intro s _ _; rw [newChecks_nil]; rfl
  | cons a rest ih =>
    intro s hInv hif
    obtain ⟨_, hsh⟩ := stepD_shape beh s a
    rcases hsh with ⟨ext, hext, hch, hcase⟩ | ⟨y, ext, hy, hext, hch, hifn, hwl⟩
    · rw [newChecks_cons beh s a rest hext, hch, List.nil_append]
      rcases hcase with ⟨_, h2⟩ | ⟨v, _, _, h2⟩ |
        ⟨v, rest2, _, hifn0, _, _⟩ | ⟨_, h2⟩
      · exact ih _ (inv_stepD hInv) (h2.trans hif)
      · exact ih _ (inv_stepD hInv) (h2.trans hif)
      · rw [hifn0] at hif; exact Option.noConfusion hif
      · exact ih _ (inv_stepD hInv) (h2.trans hif)
    · have hyx : y = x := by
        rw [hy] at hif
        exact Option.some.inj hif
      subst hyx
      rw [newChecks_cons beh s a rest hext, hch]
      exact firstBefore_cons_x hxw _

/-- FIFO fairness: if `x` sits strictly in front of `w` in the pending
queue, then in any continuation `x` is checked before `w` is checked. -/
theorem round_robin_aux (beh : Behavior) {x w : Nat} (acts : List Action) :
    ∀ (s : Exec) (q1 q2 : List Nat), Inv beh s →
      s.waitables = q1 ++ x :: q2 → w ∈ q2 →
      firstBefore x w (newChecks beh s acts) = true := by
  induction acts with
  | nil => intro s q1 q2 _ _ _; rw [newChecks_nil]; rfl
  | cons a rest ih =>
    intro s q1 q2 hInv hsplit hwq
    have hwW : w ∈ s.waitables := by
      rw [hsplit]
      exact List.mem_append_right _ (List.mem_cons_of_mem _ hwq)
    have hxW : x ∈ s.waitables := by
      rw [hsplit]
      exact List.mem_append_right _ (List.mem_cons_self _ _)
    have hxw : x ≠ w := by
      intro hc
      subst hc
      have hb := waitables_inFlight_count hInv x
      rw [hsplit] at hb
      have hq2 := List.count_pos_iff_mem.mpr hwq
      simp [List.count_append, List.count_cons] at hb
      omega
    obtain ⟨hmono, hsh⟩ := stepD_shape beh s a
    rcases hsh with ⟨ext, hext, hch, hcase⟩ | ⟨y, ext, hy, hext, hch, hifn, hwl⟩
    · rw [newChecks_cons beh s a rest hext, hch, List.nil_append]
      rcases hcase with ⟨h1, h2⟩ | ⟨v, hvna, h1, h2⟩ |
        ⟨v, rest2, hwlv, hifn0, h1, h2⟩ | ⟨h1, h2⟩
      · exact ih _ q1 q2 (inv_stepD hInv) (h1.trans hsplit) hwq
      · refine ih _ q1 (q2 ++ [v]) (inv_stepD hInv) ?_
          (List.mem_append_left _ hwq)
        rw [h1, hsplit]
        simp
      · cases q1 with
        | nil =>
          rw [List.nil_append] at hsplit
          rw [hwlv] at hsplit
          injection hsplit with hvx hrq
          refine checks_start_with_inflight beh hxw rest _ (inv_stepD hInv) ?_
          rw [h2, hvx]
        | cons hq q1t =>
          rw [List.cons_append] at hsplit
          rw [hwlv] at hsplit
          injection hsplit with hvh hrq
          exact ih _ q1t q2 (inv_stepD hInv) (h1.trans hrq) hwq
      · refine firstBefore_of_not_mem
          (checks_avoid_removed beh rest _ (inv_stepD hInv)
            (hmono w (accepted_of_mem_waitables hInv hwW)) ?_ ?_)
        · rw [h1]; simp
        · rw [h2]
          intro hc
          have hb := waitables_inFlight_count hInv w
          have hcnt := List.count_pos_iff_mem.mpr hwW
          rw [hc] at hb
          simp [inFlightCount] at hb
          omega
    · have hyx : y ≠ x := by
        intro hc
        subst hc
        have hb := waitables_inFlight_count hInv y
        have hcnt := List.count_pos_iff_mem.mpr hxW
        rw [hy] at hb
        simp [inFlightCount] at hb
        omega
      have hyw : y ≠ w := by
        intro hc
        subst hc
        have hb := waitables_inFlight_count hInv y
        have hcnt := List.count_pos_iff_mem.mpr hwW
        rw [hy] at hb
        simp [inFlightCount] at hb
        omega
      rw [newChecks_cons beh s a rest hext, hch,
        show ([y] ++ newChecks beh (stepD beh s a) rest : List Nat) =
          y :: newChecks beh (stepD beh s a) rest from rfl,
        firstBefore_cons_other hyw hyx]
      rcases hwl with h1 | h1
      · exact ih _ q1 q2 (inv_stepD hInv) (h1.trans hsplit) hwq
      · refine ih _ q1 (q2 ++ [y]) (inv_stepD hInv) ?_
          (List.mem_append_left _ hwq)
        rw [h1, hsplit]
        simp

/-- Claim C7: when `wait(q)` on the popped operation returns false, the
poll loop pushes the operation back to the tail of the pending queue,
and FIFO round-robin fairness follows: for any operation `x` that was
pending in the queue at that moment, in every continuation of the
execution the pushed-back operation `w` does not receive its next
`wait` check before `x` has received one. -/
theorem round_robin_pushback (beh : Behavior) (acts acts2 : List Action)
    (x w : Nat)
    (hif : (run beh acts).inFlight = some w)
    (hbeh : beh w ((run beh acts).waitCount w) = WaitOutcome.notReady)
    (hx : x ∈ (run beh acts).waitables) :
    (stepD beh (run beh acts) Action.pollFinish).waitables =
      (run beh acts).waitables ++ [w] ∧
    firstBefore x w
      (newChecks beh (stepD beh (run beh acts) Action.pollFinish) acts2)
      = true := by
  have h := inv_run beh acts
  have hdest : (run beh acts).destroyed = false := by
    cases hx2 : (run beh acts).destroyed
    · rfl
    · obtain ⟨_, _, hin, _⟩ := h.deadQuiet hx2
      rw [hif] at hin
      exact Option.noConfusion hin
  have hps : (stepD beh (run beh acts) Action.pollFinish).waitables =
      (run beh acts).waitables ++ [w] := by
    simp [stepD, step, stepAux, hdest, hif, hbeh]
  refine ⟨hps, ?_⟩
  obtain ⟨q1, q2, hq⟩ := List.append_of_mem hx
  refine round_robin_aux beh acts2 _ q1 (q2 ++ [w]) (inv_stepD h) ?_ (by simp)
  rw [hps, hq]
  simp



theorem round_robin_pushback_witness :
    firstBefore 1 0
      (newChecks behC7 (stepD behC7 (run behC7 c7acts) Action.pollFinish)
        c7acts2) = true :=
  (round_robin_pushback behC7 c7acts c7acts2 1 0
    (by decide) (by decide) (by decide)).2

end PollingExec
